import Mathlib

/-!
Verification of the restricted-YAML reader and region rewriter of
LomoMarketplace (plugins/dev-helper/scripts/sync_skill.py and
plugins/dev-helper/scripts/validate_init.py).

Strings are modelled as `List Char`.  The Python regular expressions used by
the scripts are simple enough to be modelled by deterministic scanners:

  sync_skill.parse_yaml_simple      -> stepS / parseSlines / parse_yaml_simple
  validate_init.parse_yaml_frontmatter -> stepF / parseFlines / parse_yaml_frontmatter
  sync_skill.read_region            -> readRegionL
  sync_skill.write_region           -> write_region (re.sub parses the
                                        replacement template before matching --
                                        parseTemplateF, following CPython 3.11
                                        re._parser.parse_template, with none
                                        for a raised re.error -- then replaces
                                        every non-overlapping match by the
                                        expanded template, modelled by the
                                        fuelled global substitution subAllT;
                                        for backslash-free content this equals
                                        the literal splice writeRegionL by
                                        write_region_noBS)

The two region names the scripts pass (Config, References) are word
characters only, so the marker patterns are literal; theorems quantifying
over the region name carry that restriction as an explicit hypothesis.
-/

set_option maxRecDepth 10000

/-- Whitespace test matching Python `str.strip()` and the regex class for
ASCII characters: space, tab, newline, carriage return, vertical tab, form feed. -/
def isWsC (c : Char) : Bool :=
  c == ' ' || c == '\t' || c == '\n' || c == '\r' || c == '\x0b' || c == '\x0c'

/-- Word-character test matching the regex word class for ASCII input:
letters, digits and underscore. -/
def isWordC (c : Char) : Bool := c.isAlphanum || c == '_'

/-- Quote-character test for Python `str.strip` with the two quote characters. -/
def isQuoteC (c : Char) : Bool := c == '"' || c == '\''

/-- Remove the longest run of characters satisfying `p` from the end of the list
(Python `str.rstrip` restricted to a character class). -/
def dropTail (p : Char → Bool) (l : List Char) : List Char :=
  (l.reverse.dropWhile p).reverse

/-- Python `str.strip()`: remove whitespace from both ends. -/
def trimWs (l : List Char) : List Char := dropTail isWsC (l.dropWhile isWsC)

/-- Python `value.strip('"\x27')`: remove any run of single or double quote
characters from both ends, independent of matching. -/
def stripQ (l : List Char) : List Char := dropTail isQuoteC (l.dropWhile isQuoteC)

/-- True when `pat` occurs at the very front of `h`. -/
def leadMatch : List Char → List Char → Bool
  | _, [] => true
  | [], _ :: _ => false
  | c :: cs, p :: ps => c == p && leadMatch cs ps

/-- Index of the first occurrence of `pat` inside the haystack (Python
`str.index` / leftmost regex literal match), `none` when absent. -/
def findSub (pat : List Char) : List Char → Option Nat
  | [] => if leadMatch [] pat then some 0 else none
  | c :: rest =>
    if leadMatch (c :: rest) pat then some 0
    else (findSub pat rest).map (fun n => n + 1)

/-- Python `str.split('\n')`: always at least one field. -/
def splitNl : List Char → List (List Char)
  | [] => [[]]
  | '\n' :: rest => [] :: splitNl rest
  | c :: rest =>
    match splitNl rest with
    | [] => [[c]]
    | l :: ls => (c :: l) :: ls

/-- Python `str.split(',')`. -/
def splitComma : List Char → List (List Char)
  | [] => [[]]
  | ',' :: rest => [] :: splitComma rest
  | c :: rest =>
    match splitComma rest with
    | [] => [[c]]
    | l :: ls => (c :: l) :: ls

/-- Property value inside a block-list object of the frontmatter reader:
either a scalar string or an inline array of strings. -/
inductive PVal where
  | str : List Char → PVal
  | strs : List (List Char) → PVal
deriving DecidableEq

/-- One entry of a parsed block list: a plain string, or (frontmatter reader
only) a flat object mapping property names to `PVal`s. -/
inductive LItem where
  | str : List Char → LItem
  | obj : List (List Char × PVal) → LItem
deriving DecidableEq

/-- Top-level mapping value of both readers: a scalar string or a list. -/
inductive TVal where
  | str : List Char → TVal
  | list : List LItem → TVal
deriving DecidableEq

/-- Python dict assignment `m[k] = v` on an insertion-ordered mapping:
replace in place when the key exists, append otherwise. -/
def updA (m : List (List Char × TVal)) (k : List Char) (v : TVal) :
    List (List Char × TVal) :=
  match m with
  | [] => [(k, v)]
  | (k1, v1) :: rest => if k1 = k then (k, v) :: rest else (k1, v1) :: updA rest k v

/-- Python dict lookup on the ordered mapping. -/
def lookupA (m : List (List Char × TVal)) (k : List Char) : Option TVal :=
  match m with
  | [] => none
  | (k1, v1) :: rest => if k1 = k then some v1 else lookupA rest k

/-- Python dict assignment on a flat object (property map of a list item). -/
def updP (o : List (List Char × PVal)) (k : List Char) (v : PVal) :
    List (List Char × PVal) :=
  match o with
  | [] => [(k, v)]
  | (k1, v1) :: rest => if k1 = k then (k, v) :: rest else (k1, v1) :: updP rest k v

/-! ## The sync-script reader (sync_skill.parse_yaml_simple) -/

/-- Scanner for the list-item pattern of sync_skill (optional leading
whitespace, a dash, optional whitespace, then the payload).  Returns the
payload (regex group 2). -/
def slistMatch (l : List Char) : Option (List Char) :=
  match l.dropWhile isWsC with
  | '-' :: rest => some (rest.dropWhile isWsC)
  | _ => none

/-- Scanner for the top-level key/value pattern (a nonempty word-character
run, a colon, optional whitespace, then the value).  Returns key and value
(regex groups 1 and 2). -/
def kvMatch (l : List Char) : Option (List Char × List Char) :=
  match l.takeWhile isWordC, l.dropWhile isWordC with
  | _ :: _, ':' :: rest => some (l.takeWhile isWordC, rest.dropWhile isWsC)
  | _, _ => none

/-- The literal two-character inline-array value `[]`. -/
def lbrk : List Char := ['[', ']']

/-- Python `value.startswith('[') and value.endswith(']')`. -/
def isInlineArr (l : List Char) : Bool :=
  match l with
  | '[' :: rest =>
    match rest.reverse with
    | ']' :: _ => true
    | _ => false
  | _ => false

/-- Parse the inside of an inline array `[ ... ]`: drop the brackets, split on
commas, keep the fields that are nonempty after whitespace-stripping, and
whitespace-strip then quote-strip each kept field. -/
def parseArr (v : List Char) : List (List Char) :=
  ((splitComma ((v.drop 1).dropLast)).filter
      (fun i => !(trimWs i).isEmpty)).map (fun i => stripQ (trimWs i))

/-- Loop state of parse_yaml_simple: the mapping built so far, the current
key, the list being collected, and whether a block list is open. -/
structure SState where
  result : List (List Char × TVal)
  curKey : Option (List Char)
  curList : List LItem
  inList : Bool
deriving DecidableEq

/-- Initial state of parse_yaml_simple. -/
def initS : SState := ⟨[], none, [], false⟩

/-- One loop iteration of parse_yaml_simple over a raw line: right-strip the
line, skip it when blank, otherwise try the list-item pattern, then the
key/value pattern, and ignore anything else. -/
def stepS (st : SState) (raw : List Char) : SState :=
  let line := dropTail isWsC raw
  if line.isEmpty then st
  else
    match slistMatch line with
    | some value =>
      match st.curKey, st.inList with
      | some _, true =>
        { st with curList := st.curList ++ [LItem.str (stripQ (trimWs value))] }
      | _, _ => st
    | none =>
      match kvMatch line with
      | none => st
      | some (key, value0) =>
        let value := trimWs value0
        let st1 : SState :=
          match st.curKey, st.inList with
          | some ck, true => ⟨updA st.result ck (TVal.list st.curList), st.curKey, [], false⟩
          | _, _ => st
        if value = [] ∨ value = lbrk then
          ⟨st1.result, some key, [], true⟩
        else if isInlineArr value then
          ⟨updA st1.result key (TVal.list ((parseArr value).map LItem.str)),
            st1.curKey, st1.curList, st1.inList⟩
        else
          ⟨updA st1.result key (TVal.str (stripQ value)), some key,
            st1.curList, st1.inList⟩

/-- Final flush of parse_yaml_simple: store the still-open list. -/
def finishS (st : SState) : List (List Char × TVal) :=
  match st.curKey, st.inList with
  | some ck, true => updA st.result ck (TVal.list st.curList)
  | _, _ => st.result

/-- The line loop of parse_yaml_simple. -/
def parseSlines (ls : List (List Char)) : List (List Char × TVal) :=
  finishS (ls.foldl stepS initS)

/-- sync_skill.parse_yaml_simple: strip the text, split it on newlines and run
the line loop.  Total on every input. -/
def parse_yaml_simple (text : List Char) : List (List Char × TVal) :=
  parseSlines (splitNl (trimWs text))

/-! ## The frontmatter reader (validate_init.parse_yaml_frontmatter) -/

/-- Scanner for the frontmatter list-item pattern: at least one leading
whitespace character, then a dash.  Returns the payload. -/
def flistMatch (l : List Char) : Option (List Char) :=
  match l with
  | [] => none
  | c :: _ => if isWsC c then slistMatch l else none

/-- Scanner for the indented property pattern: at least one leading
whitespace character, then a word run, a colon and the value. -/
def propMatch (l : List Char) : Option (List Char × List Char) :=
  match l with
  | [] => none
  | c :: _ => if isWsC c then kvMatch (l.dropWhile isWsC) else none

/-- The literal prefix `name:` that opens an object-shaped list item. -/
def nameColon : List Char := ['n', 'a', 'm', 'e', ':']

/-- The key `name` of an object-shaped list item. -/
def nameKey : List Char := ['n', 'a', 'm', 'e']

/-- Loop state of parse_yaml_frontmatter: the mapping, the current key, and
the key whose list object `current_list` aliases (`none` when closed).
Every assignment into the mapping also reassigns `current_list`, so the
alias is faithfully represented by the key it points at. -/
structure FState where
  result : List (List Char × TVal)
  curKey : Option (List Char)
  cur : Option (List Char)
deriving DecidableEq

/-- Initial state of parse_yaml_frontmatter. -/
def initF : FState := ⟨[], none, none⟩

/-- Append one item to the list the open cursor aliases
(`current_list.append(...)` in the script; the aliased value is a list by
construction). -/
def appendAt (st : FState) (k : List Char) (it : LItem) : FState :=
  match lookupA st.result k with
  | some (TVal.list l) => ⟨updA st.result k (TVal.list (l ++ [it])), st.curKey, st.cur⟩
  | _ => st

/-- The top-level key/value branch of parse_yaml_frontmatter. -/
def kvStepF (st : FState) (line : List Char) : FState :=
  match kvMatch line with
  | none => st
  | some (key, value0) =>
    let value := trimWs value0
    if value = lbrk ∨ value = [] then
      ⟨updA st.result key (TVal.list []), some key, some key⟩
    else if isInlineArr value then
      ⟨updA st.result key (TVal.list ((parseArr value).map LItem.str)), some key, none⟩
    else
      ⟨updA st.result key (TVal.str (stripQ value)), some key, none⟩

/-- One loop iteration of parse_yaml_frontmatter: skip blank lines, then try
the list-item pattern with an open cursor, then the indented property
pattern with an object-ended open list, then the top-level pattern. -/
def stepF (st : FState) (line : List Char) : FState :=
  if (trimWs line).isEmpty then st
  else
    match flistMatch line, st.cur with
    | some value, some ck =>
      let v := trimWs value
      if v.isEmpty then st
      else if leadMatch v nameColon then
        let rest := v.drop 5
        let o : List (List Char × PVal) :=
          if rest.isEmpty then [] else [(nameKey, PVal.str (trimWs rest))]
        appendAt st ck (LItem.obj o)
      else appendAt st ck (LItem.str (stripQ v))
    | _, _ =>
      match propMatch line, st.cur with
      | some (pk, pv0), some ck =>
        match lookupA st.result ck with
        | some (TVal.list l) =>
          match l.getLast? with
          | some (LItem.obj o) =>
            let v := trimWs pv0
            let pv := if isInlineArr v then PVal.strs (parseArr v) else PVal.str (stripQ v)
            ⟨updA st.result ck (TVal.list (l.dropLast ++ [LItem.obj (updP o pk pv)])),
              st.curKey, st.cur⟩
          | _ => kvStepF st line
        | _ => kvStepF st line
      | _, _ => kvStepF st line

/-- The line loop of parse_yaml_frontmatter. -/
def parseFlines (ls : List (List Char)) : List (List Char × TVal) :=
  (ls.foldl stepF initF).result

/-- The frontmatter fence `---`. -/
def dashes3 : List Char := ['-', '-', '-']

/-- validate_init.parse_yaml_frontmatter: require the text to start with
`---`, locate the next `---` from index 3 on (`none` when missing, matching
the caught ValueError), strip the text in between, and run the line loop. -/
def parse_yaml_frontmatter (content : List Char) :
    Option (List (List Char × TVal)) :=
  if leadMatch content dashes3 then
    match findSub dashes3 (content.drop 3) with
    | none => none
    | some idx => some (parseFlines (splitNl (trimWs ((content.drop 3).take idx))))
  else none

/-! ## The region rewriter (sync_skill.read_region / write_region) -/

/-- The start marker of a named region. -/
def startM (name : List Char) : List Char :=
  "<!-- region Generated ".data ++ name ++ (" Start " ++ "-->").data

/-- The end marker of a named region. -/
def endM (name : List Char) : List Char :=
  "<!-- region Generated ".data ++ name ++ (" End " ++ "-->").data

/-- sync_skill.read_region: the leftmost match of the marker-pair pattern
selects the first start marker that is followed by an end marker; the
non-greedy inner group ends at the first end marker after it, and the
returned group is stripped.  The greedy whitespace run after the start marker
is absorbed by the final strip, so the result is the stripped span between
the markers.  The code interpolates region_name unescaped into the regex, so
this literal-marker model is faithful for names made of word characters (the
scripts only pass Config and References); theorems below that quantify over
the name carry that restriction as a hypothesis. -/
def readRegionL (name doc : List Char) : Option (List Char) :=
  match findSub (startM name) doc with
  | none => none
  | some i =>
    match findSub (endM name) (doc.drop (i + (startM name).length)) with
    | none => none
    | some j => some (trimWs ((doc.drop (i + (startM name).length)).take j))

/-- Global substitution of `re.sub` on the marker-pair pattern: replace every
non-overlapping leftmost match, scanning on after each replacement.  Each
match consumes at least one character of the remaining document, so the
document length is enough fuel. -/
def subAllF (sm em nc : List Char) : Nat → List Char → List Char
  | 0, doc => doc
  | f + 1, doc =>
    match findSub sm doc with
    | none => doc
    | some i =>
      match findSub em (doc.drop (i + sm.length)) with
      | none => doc
      | some j =>
        doc.take i ++ sm ++ '\n' :: (nc ++ '\n' ::
          (em ++ subAllF sm em nc f ((doc.drop (i + sm.length)).drop (j + em.length))))

/-- The substitution loop of sync_skill.write_region in the common case in
which the replacement template splice is literal, i.e. for content with no
backslash: every matched marker pair's span is replaced by the content
padded with one newline on each side; the document is returned unchanged
when no pair matches.  The full model, including the replacement-template
processing of re.sub, is write_region below; write_region_noBS connects the
two. -/
def writeRegionL (name nc doc : List Char) : List Char :=
  subAllF (startM name) (endM name) nc doc.length doc

/-! ## The re.sub replacement template

write_region passes the string built by splicing the new content into
`\x5c1`, newline, content, newline, `\x5c2` to pattern.sub as a
replacement TEMPLATE.  re.sub parses that template before any matching
(raising re.error on a bad escape even when the document has no marker
pair), expands group references (0 = whole match, 1 = start marker,
2 = end marker for this two-group pattern), and splices the rest literally.
The following definitions model CPython 3.11 re._parser.parse_template for
a two-group pattern with no named groups, on ASCII input; a raised re.error
is modelled as none. -/

/-- One parsed element of a replacement template: a literal character or a
group reference. -/
inductive TItem where
  | lit : Char → TItem
  | grp : Nat → TItem
deriving DecidableEq

/-- Octal digit test. -/
def isOctD (c : Char) : Bool := c.isDigit && c.toNat ≤ 55

/-- The template escape table of the parser (ESCAPES without the
double-backslash entry, which the code below handles in place). -/
def templEsc (c : Char) : Option Char :=
  if c = 'a' then some '\x07'
  else if c = 'b' then some '\x08'
  else if c = 'f' then some '\x0c'
  else if c = 'n' then some '\n'
  else if c = 'r' then some '\r'
  else if c = 't' then some '\t'
  else if c = 'v' then some '\x0b'
  else none

/-- Python str.isidentifier for ASCII text. -/
def isIdentPy (s : List Char) : Bool :=
  match s with
  | [] => false
  | c :: rest => (c.isAlpha || c == '_') && rest.all isWordC

/-- Digit run with single underscores between digits, as accepted by
Python int(). -/
def digitsUndersGo (acc : Nat) : List Char → Option Nat
  | [] => some acc
  | '_' :: rest =>
    match rest with
    | d :: rest2 =>
      if d.isDigit then digitsUndersGo (acc * 10 + (d.toNat - 48)) rest2 else none
    | [] => none
  | d :: rest => if d.isDigit then digitsUndersGo (acc * 10 + (d.toNat - 48)) rest else none

/-- Nonempty digit run with single underscores between digits. -/
def digitsUnders : List Char → Option Nat
  | [] => none
  | c :: rest => if c.isDigit then digitsUndersGo (c.toNat - 48) rest else none

/-- Python int() on ASCII text: strip whitespace, optional sign, digits with
underscores; none when the call would raise ValueError. -/
def pyIntOpt (s : List Char) : Option Int :=
  match trimWs s with
  | '+' :: rest => (digitsUnders rest).map (fun n => (n : Int))
  | '-' :: rest => (digitsUnders rest).map (fun n => -(n : Int))
  | rest => (digitsUnders rest).map (fun n => (n : Int))

/-- Tokenizer.getuntil of the template parser: characters up to the closing
angle bracket, with a backslash pairing with the following character (so a
paired bracket does not terminate); none models the raised error when the
name is unterminated or a trailing backslash ends the template. -/
def getUntilGt : List Char → Option (List Char × List Char)
  | [] => none
  | '>' :: rest => some ([], rest)
  | '\x5c' :: rest =>
    match rest with
    | [] => none
    | c :: rest2 => (getUntilGt rest2).map (fun p => ('\x5c' :: c :: p.1, p.2))
  | c :: rest => (getUntilGt rest).map (fun p => (c :: p.1, p.2))

/-- Resolve the name of a g-form group reference for a pattern with two
unnamed groups: an empty name, an identifier (unknown group name), a
non-integer, a negative index or an index above the group count all model a
raised error. -/
def gNameIndex (name : List Char) : Option Nat :=
  if name = [] then none
  else if isIdentPy name then none
  else
    match pyIntOpt name with
    | none => none
    | some i => if i < 0 then none else if i > 2 then none else some i.toNat

/-- Fuelled template parser, following parse_template branch by branch: a
group reference in g form or digit form, octal escapes after a zero or
three octal digits, the escape table for letters (an unknown letter escape
is an error), a double backslash collapsing to one, and any other escaped
character kept together with its backslash.  Every recursive call consumes
at least one character, so a fuel one above the template length never runs
out. -/
def parseTemplateF : Nat → List Char → Option (List TItem)
  | 0, _ => none
  | _ + 1, [] => some []
  | f + 1, c :: rest =>
    if c = '\x5c' then
      match rest with
      | [] => none
      | e :: rest2 =>
        if e = 'g' then
          match rest2 with
          | '<' :: rest3 =>
            match getUntilGt rest3 with
            | none => none
            | some (name, rest4) =>
              match gNameIndex name with
              | none => none
              | some i => (parseTemplateF f rest4).map (fun ts => TItem.grp i :: ts)
          | _ => none
        else if e = '0' then
          match rest2 with
          | d1 :: rest3 =>
            if isOctD d1 then
              match rest3 with
              | d2 :: rest4 =>
                if isOctD d2 then
                  (parseTemplateF f rest4).map (fun ts =>
                    TItem.lit (Char.ofNat ((d1.toNat - 48) * 8 + (d2.toNat - 48))) :: ts)
                else
                  (parseTemplateF f rest3).map (fun ts =>
                    TItem.lit (Char.ofNat (d1.toNat - 48)) :: ts)
              | [] =>
                (parseTemplateF f []).map (fun ts =>
                  TItem.lit (Char.ofNat (d1.toNat - 48)) :: ts)
            else (parseTemplateF f rest2).map (fun ts => TItem.lit (Char.ofNat 0) :: ts)
          | [] => (parseTemplateF f []).map (fun ts => TItem.lit (Char.ofNat 0) :: ts)
        else if e.isDigit then
          match rest2 with
          | d2 :: rest3 =>
            if d2.isDigit then
              match rest3 with
              | d3 :: rest4 =>
                if isOctD e && isOctD d2 && isOctD d3 then
                  if (e.toNat - 48) * 64 + (d2.toNat - 48) * 8 + (d3.toNat - 48) > 255 then none
                  else
                    (parseTemplateF f rest4).map (fun ts =>
                      TItem.lit (Char.ofNat
                        ((e.toNat - 48) * 64 + (d2.toNat - 48) * 8 + (d3.toNat - 48))) :: ts)
                else
                  if (e.toNat - 48) * 10 + (d2.toNat - 48) > 2 then none
                  else
                    (parseTemplateF f rest3).map (fun ts =>
                      TItem.grp ((e.toNat - 48) * 10 + (d2.toNat - 48)) :: ts)
              | [] =>
                if (e.toNat - 48) * 10 + (d2.toNat - 48) > 2 then none
                else
                  (parseTemplateF f []).map (fun ts =>
                    TItem.grp ((e.toNat - 48) * 10 + (d2.toNat - 48)) :: ts)
            else
              if e.toNat - 48 > 2 then none
              else (parseTemplateF f rest2).map (fun ts => TItem.grp (e.toNat - 48) :: ts)
          | [] =>
            if e.toNat - 48 > 2 then none
            else (parseTemplateF f []).map (fun ts => TItem.grp (e.toNat - 48) :: ts)
        else
          match templEsc e with
          | some ch => (parseTemplateF f rest2).map (fun ts => TItem.lit ch :: ts)
          | none =>
            if e.isAlpha then none
            else if e = '\x5c' then
              (parseTemplateF f rest2).map (fun ts => TItem.lit '\x5c' :: ts)
            else
              (parseTemplateF f rest2).map (fun ts => TItem.lit '\x5c' :: TItem.lit e :: ts)
    else
      (parseTemplateF f rest).map (fun ts => TItem.lit c :: ts)

/-- Parse a replacement template; none models a raised re.error. -/
def parseTemplate (s : List Char) : Option (List TItem) :=
  parseTemplateF (s.length + 1) s

/-- The replacement template write_region builds around the new content. -/
def templateOf (nc : List Char) : List Char :=
  '\x5c' :: '1' :: '\n' :: (nc ++ '\n' :: '\x5c' :: '2' :: [])

/-- Expand one template element at a match whose whole text is g0 and whose
two groups matched g1 and g2. -/
def renderTI (g0 g1 g2 : List Char) : TItem → List Char
  | TItem.lit c => [c]
  | TItem.grp n => if n = 0 then g0 else if n = 1 then g1 else if n = 2 then g2 else []

/-- Expand a parsed template at a match. -/
def renderT (g0 g1 g2 : List Char) (items : List TItem) : List Char :=
  items.foldr (fun it acc => renderTI g0 g1 g2 it ++ acc) []

/-- Global substitution with a parsed replacement template: every match of
the marker-pair pattern is replaced by the template expanded at that match
(group 0 is the whole matched span, groups 1 and 2 the two markers). -/
def subAllT (sm em : List Char) (items : List TItem) : Nat → List Char → List Char
  | 0, doc => doc
  | f + 1, doc =>
    match findSub sm doc with
    | none => doc
    | some i =>
      match findSub em (doc.drop (i + sm.length)) with
      | none => doc
      | some j =>
        doc.take i ++
          (renderT ((doc.drop i).take (sm.length + j + em.length)) sm em items ++
            subAllT sm em items f ((doc.drop (i + sm.length)).drop (j + em.length)))

/-- sync_skill.write_region, full model: build the replacement template
around the new content, parse it as re.sub does before any matching (none
models the raised re.error), then replace every matched marker pair by the
expanded template.  Faithful for region names made of word characters (the
scripts use Config and References); a name with regex metacharacters would
change the compiled pattern itself. -/
def write_region (name nc doc : List Char) : Option (List Char) :=
  match parseTemplate (templateOf nc) with
  | none => none
  | some items => some (subAllT (startM name) (endM name) items doc.length doc)

/-- The parsed form of the template write_region builds from backslash-free
content: group 1, then the newline-padded content as literals, then
group 2. -/
def baseItems (nc : List Char) : List TItem :=
  TItem.grp 1 :: (('\n' :: (nc ++ ['\n'])).map TItem.lit ++ [TItem.grp 2])

/-! ## Facts about leadMatch and findSub -/

theorem leadMatch_iff (h pat : List Char) :
    leadMatch h pat = true ↔ ∃ t, h = pat ++ t := by
  induction pat generalizing h with
  | nil => simp [leadMatch]
  | cons p ps ih =>
    cases h with
    | nil => simp [leadMatch]
    | cons c cs =>
      simp only [leadMatch, Bool.and_eq_true, beq_iff_eq, ih, List.cons_append]
      constructor
      · rintro ⟨rfl, t, rfl⟩; exact ⟨t, rfl⟩
      · rintro ⟨t, heq⟩
        cases heq
        exact ⟨rfl, t, rfl⟩

theorem leadMatch_length {h pat : List Char} (hm : leadMatch h pat = true) :
    pat.length ≤ h.length := by
  rcases (leadMatch_iff h pat).mp hm with ⟨t, rfl⟩
  simp

theorem leadMatch_append_right (h pat r : List Char)
    (hm : leadMatch h pat = true) : leadMatch (h ++ r) pat = true := by
  rcases (leadMatch_iff h pat).mp hm with ⟨t, rfl⟩
  exact (leadMatch_iff _ _).mpr ⟨t ++ r, by simp⟩

theorem leadMatch_self_append (pat r : List Char) :
    leadMatch (pat ++ r) pat = true :=
  (leadMatch_iff _ _).mpr ⟨r, rfl⟩

theorem leadMatch_take (h pat : List Char) :
    leadMatch h pat = leadMatch (h.take pat.length) pat := by
  induction pat generalizing h with
  | nil => simp [leadMatch]
  | cons p ps ih =>
    cases h with
    | nil => simp
    | cons c cs => simp [leadMatch, ih cs]

theorem findSub_nil {pat : List Char} (h : pat ≠ []) : findSub pat [] = none := by
  cases pat with
  | nil => exact absurd rfl h
  | cons p ps => simp [findSub, leadMatch]

theorem findSub_spec1 {pat l : List Char} {t : Nat} (h : findSub pat l = some t) :
    leadMatch (l.drop t) pat = true := by
  induction l generalizing t with
  | nil =>
    by_cases hm : leadMatch [] pat = true
    · simp only [findSub, hm, if_true, Option.some.injEq] at h
      subst h; simpa using hm
    · simp only [Bool.not_eq_true] at hm
      simp [findSub, hm] at h
  | cons c cs ih =>
    by_cases hm : leadMatch (c :: cs) pat = true
    · simp only [findSub, hm, if_true, Option.some.injEq] at h
      subst h; simpa using hm
    · simp only [Bool.not_eq_true] at hm
      simp only [findSub, hm, Bool.false_eq_true, if_false, Option.map_eq_some'] at h
      rcases h with ⟨t', ht', rfl⟩
      simpa using ih ht'

theorem findSub_spec2 {pat l : List Char} {t : Nat} (h : findSub pat l = some t) :
    ∀ k, k < t → leadMatch (l.drop k) pat = false := by
  induction l generalizing t with
  | nil =>
    by_cases hm : leadMatch [] pat = true
    · simp only [findSub, hm, if_true, Option.some.injEq] at h
      subst h; omega
    · simp only [Bool.not_eq_true] at hm
      simp [findSub, hm] at h
  | cons c cs ih =>
    by_cases hm : leadMatch (c :: cs) pat = true
    · simp only [findSub, hm, if_true, Option.some.injEq] at h
      subst h; omega
    · simp only [Bool.not_eq_true] at hm
      simp only [findSub, hm, Bool.false_eq_true, if_false, Option.map_eq_some'] at h
      rcases h with ⟨t', ht', rfl⟩
      intro k hk
      cases k with
      | zero => simpa using hm
      | succ k' => simpa using ih ht' k' (by omega)

theorem findSub_of {pat l : List Char} {t : Nat}
    (hme : leadMatch (l.drop t) pat = true)
    (hnone : ∀ k, k < t → leadMatch (l.drop k) pat = false) :
    findSub pat l = some t := by
  induction l generalizing t with
  | nil =>
    rcases Nat.eq_zero_or_pos t with rfl | hpos
    · simp only [List.drop_nil] at hme
      simp [findSub, hme]
    · have := hnone 0 hpos
      simp only [List.drop_nil] at hme this
      rw [hme] at this
      cases this
  | cons c cs ih =>
    rcases Nat.eq_zero_or_pos t with rfl | hpos
    · simp only [List.drop_zero] at hme
      simp [findSub, hme]
    · have h0 := hnone 0 hpos
      simp only [List.drop_zero] at h0
      obtain ⟨t', rfl⟩ : ∃ t', t = t' + 1 := ⟨t - 1, by omega⟩
      have hme' : leadMatch (cs.drop t') pat = true := by simpa using hme
      have hnone' : ∀ k, k < t' → leadMatch (cs.drop k) pat = false := by
        intro k hk
        simpa using hnone (k + 1) (by omega)
      simp [findSub, h0, ih hme' hnone']

theorem findSub_none_iff (pat l : List Char) :
    findSub pat l = none ↔ ∀ k, leadMatch (l.drop k) pat = false := by
  induction l with
  | nil =>
    by_cases hm : leadMatch [] pat = true
    · simp only [findSub, hm, if_true]
      constructor
      · intro h; cases h
      · intro h; have := h 0; simp only [List.drop_nil] at this; rw [hm] at this; cases this
    · simp only [Bool.not_eq_true] at hm
      simp [findSub, hm]
  | cons c cs ih =>
    by_cases hm : leadMatch (c :: cs) pat = true
    · simp only [findSub, hm, if_true]
      constructor
      · intro h; cases h
      · intro h; have := h 0; simp only [List.drop_zero] at this; rw [hm] at this; cases this
    · simp only [Bool.not_eq_true] at hm
      simp only [findSub, hm, Bool.false_eq_true, if_false, Option.map_eq_none', ih]
      constructor
      · intro h k
        cases k with
        | zero => simpa using hm
        | succ k' => simpa using h k'
      · intro h k
        simpa using h (k + 1)

theorem findSub_le {pat l : List Char} {t : Nat} (h : findSub pat l = some t) :
    t + pat.length ≤ l.length := by
  have hme := findSub_spec1 h
  cases pat with
  | nil =>
    rcases Nat.eq_zero_or_pos t with rfl | hpos
    · simp
    · have := findSub_spec2 h 0 hpos
      simp [leadMatch] at this
  | cons p ps =>
    have h1 : (p :: ps).length ≤ (l.drop t).length := leadMatch_length hme
    have h2 : (l.drop t).length = l.length - t := by simp
    have h3 : l.drop t ≠ [] := by
      intro hnil
      rw [hnil] at hme
      simp [leadMatch] at hme
    have h4 : 0 < (l.drop t).length := List.length_pos.mpr h3
    simp only [List.length_cons] at h1 ⊢
    omega

theorem findSub_decomp {pat l : List Char} {t : Nat} (h : findSub pat l = some t) :
    l = l.take t ++ pat ++ l.drop (t + pat.length) := by
  have hme := findSub_spec1 h
  rcases (leadMatch_iff _ _).mp hme with ⟨r, hr⟩
  have hdd : l.drop (t + pat.length) = r := by
    have h1 : (l.drop t).drop pat.length = r := by rw [hr]; simp
    rw [List.drop_drop] at h1
    exact h1
  calc l = l.take t ++ l.drop t := (List.take_append_drop t l).symm
    _ = l.take t ++ (pat ++ r) := by rw [hr]
    _ = l.take t ++ pat ++ l.drop (t + pat.length) := by rw [hdd, List.append_assoc]

theorem findSub_append_right {pat l r : List Char} {t : Nat}
    (h : findSub pat l = some t) : findSub pat (l ++ r) = some t := by
  have hle := findSub_le h
  apply findSub_of
  · have hme := findSub_spec1 h
    have : (l ++ r).drop t = l.drop t ++ r := List.drop_append_of_le_length (by omega)
    rw [this]
    exact leadMatch_append_right _ _ _ hme
  · intro k hk
    have hfalse := findSub_spec2 h k hk
    have hsplit : (l ++ r).drop k = l.drop k ++ r := List.drop_append_of_le_length (by omega)
    rw [hsplit]
    by_cases hlm : leadMatch (l.drop k ++ r) pat = true
    · exfalso
      rw [leadMatch_take] at hlm
      have hlen : pat.length ≤ (l.drop k).length := by simp; omega
      rw [List.take_append_of_le_length hlen, ← leadMatch_take] at hlm
      rw [hlm] at hfalse
      cases hfalse
    · simpa using hlm

theorem leadMatch_agree {l1 l2 pat : List Char} {n k : Nat}
    (hagree : l1.take n = l2.take n) (hfit : k + pat.length ≤ n) :
    leadMatch (l1.drop k) pat = leadMatch (l2.drop k) pat := by
  have key : ∀ l : List Char, (l.drop k).take pat.length = ((l.take n).drop k).take pat.length := by
    intro l
    rw [List.drop_take]
    rw [List.take_take]
    congr 1
    omega
  rw [leadMatch_take (l1.drop k) pat, leadMatch_take (l2.drop k) pat, key l1, key l2, hagree]

/-! ## Facts about the global substitution -/

theorem startM_ne_nil (name : List Char) : startM name ≠ [] := by
  have h : startM name =
      '<' :: ("!-- region Generated ".data ++ name ++ (" Start " ++ "-->").data) := rfl
  rw [h]
  exact List.cons_ne_nil _ _

theorem endM_ne_nil (name : List Char) : endM name ≠ [] := by
  have h : endM name =
      '<' :: ("!-- region Generated ".data ++ name ++ (" End " ++ "-->").data) := rfl
  rw [h]
  exact List.cons_ne_nil _ _

theorem subAllF_zero (sm em nc : List Char) (doc : List Char) :
    subAllF sm em nc 0 doc = doc := rfl

theorem subAllF_no_sm {sm : List Char} (em nc : List Char) {doc : List Char}
    (h : findSub sm doc = none) (f : Nat) : subAllF sm em nc f doc = doc := by
  cases f with
  | zero => rfl
  | succ f' => simp [subAllF, h]

theorem subAllF_no_em {sm em : List Char} (nc : List Char) {doc : List Char} {i : Nat}
    (h1 : findSub sm doc = some i)
    (h2 : findSub em (doc.drop (i + sm.length)) = none) (f : Nat) :
    subAllF sm em nc f doc = doc := by
  cases f with
  | zero => rfl
  | succ f' => simp [subAllF, h1, h2]

theorem subAllF_unfold (sm em nc : List Char) (f : Nat) (doc : List Char) :
    subAllF sm em nc (f + 1) doc =
      match findSub sm doc with
      | none => doc
      | some i =>
        match findSub em (doc.drop (i + sm.length)) with
        | none => doc
        | some j =>
          doc.take i ++ sm ++ '\n' :: (nc ++ '\n' ::
            (em ++ subAllF sm em nc f ((doc.drop (i + sm.length)).drop (j + em.length)))) := rfl

theorem subAllF_succ_eq {sm em nc : List Char} (hsm : sm ≠ []) :
    ∀ f (doc : List Char), doc.length ≤ f →
      subAllF sm em nc (f + 1) doc = subAllF sm em nc f doc := by
  intro f
  induction f with
  | zero =>
    intro doc hlen
    have : doc = [] := List.length_eq_zero.mp (by omega)
    subst this
    rw [subAllF_unfold]
    simp only [findSub_nil hsm]
    rfl
  | succ f' ih =>
    intro doc hlen
    rw [subAllF_unfold, subAllF_unfold]
    cases h1 : findSub sm doc with
    | none => rfl
    | some i =>
      cases h2 : findSub em (doc.drop (i + sm.length)) with
      | none => simp only [h2]
      | some j =>
        have hrec : ((doc.drop (i + sm.length)).drop (j + em.length)).length ≤ f' := by
          have hs : 0 < sm.length := List.length_pos.mpr hsm
          simp only [List.length_drop]
          omega
        simp only [h2]
        rw [ih _ hrec]

theorem subAllF_fuel {sm em nc : List Char} (hsm : sm ≠ []) :
    ∀ f (doc : List Char), doc.length ≤ f →
      subAllF sm em nc f doc = subAllF sm em nc doc.length doc := by
  intro f
  induction f with
  | zero =>
    intro doc hlen
    have : doc.length = 0 := by omega
    rw [this]
  | succ f' ih =>
    intro doc hlen
    rcases Nat.lt_or_ge doc.length (f' + 1) with hlt | hge
    · rw [subAllF_succ_eq hsm f' doc (by omega)]
      exact ih doc (by omega)
    · have : doc.length = f' + 1 := by omega
      rw [this]

theorem writeRegionL_no_sm {name doc : List Char} (nc : List Char)
    (h : findSub (startM name) doc = none) : writeRegionL name nc doc = doc :=
  subAllF_no_sm _ _ h _

theorem writeRegionL_no_em {name doc : List Char} (nc : List Char) {i : Nat}
    (h1 : findSub (startM name) doc = some i)
    (h2 : findSub (endM name) (doc.drop (i + (startM name).length)) = none) :
    writeRegionL name nc doc = doc :=
  subAllF_no_em _ h1 h2 _

theorem writeRegionL_step {name : List Char} (nc : List Char) {doc : List Char} {i j : Nat}
    (h1 : findSub (startM name) doc = some i)
    (h2 : findSub (endM name) (doc.drop (i + (startM name).length)) = some j) :
    writeRegionL name nc doc =
      doc.take i ++ startM name ++ '\n' :: (nc ++ '\n' ::
        (endM name ++ writeRegionL name nc
          ((doc.drop (i + (startM name).length)).drop (j + (endM name).length)))) := by
  have hsm := startM_ne_nil name
  have hne : doc ≠ [] := by
    intro hnil
    rw [hnil, findSub_nil hsm] at h1
    cases h1
  obtain ⟨t, ht⟩ : ∃ t, doc.length = t + 1 := by
    rcases Nat.exists_eq_succ_of_ne_zero (fun h => hne (List.length_eq_zero.mp h)) with ⟨t, ht⟩
    exact ⟨t, ht⟩
  have hrec : ((doc.drop (i + (startM name).length)).drop (j + (endM name).length)).length ≤ t := by
    have hs : 0 < (startM name).length := List.length_pos.mpr hsm
    simp only [List.length_drop]
    omega
  unfold writeRegionL
  rw [ht]
  simp only [subAllF, h1, h2]
  rw [subAllF_fuel hsm t _ hrec]

/-! ## From the template model to the literal splice -/

theorem renderT_cons (g0 g1 g2 : List Char) (it : TItem) (ts : List TItem) :
    renderT g0 g1 g2 (it :: ts) = renderTI g0 g1 g2 it ++ renderT g0 g1 g2 ts := rfl

theorem renderT_append (g0 g1 g2 : List Char) (a b : List TItem) :
    renderT g0 g1 g2 (a ++ b) = renderT g0 g1 g2 a ++ renderT g0 g1 g2 b := by
  induction a with
  | nil => rfl
  | cons x xs ih =>
    rw [List.cons_append, renderT_cons, renderT_cons, ih, List.append_assoc]

theorem renderT_lits (g0 g1 g2 : List Char) (l : List Char) :
    renderT g0 g1 g2 (l.map TItem.lit) = l := by
  induction l with
  | nil => rfl
  | cons c cs ih =>
    rw [List.map_cons, renderT_cons, ih]
    rfl

theorem renderTI_grp1 (g0 g1 g2 : List Char) : renderTI g0 g1 g2 (TItem.grp 1) = g1 := rfl

theorem renderTI_grp2 (g0 g1 g2 : List Char) : renderTI g0 g1 g2 (TItem.grp 2) = g2 := rfl

theorem renderT_base (g0 g1 g2 nc : List Char) :
    renderT g0 g1 g2 (baseItems nc) = g1 ++ (('\n' :: (nc ++ ['\n'])) ++ g2) := by
  unfold baseItems
  rw [renderT_cons, renderT_append, renderT_lits, renderTI_grp1, renderT_cons, renderTI_grp2]
  rw [show renderT g0 g1 g2 [] = [] from rfl, List.append_nil]

theorem parseTemplateF_lits :
    ∀ (lits : List Char), (∀ ch ∈ lits, ch ≠ '\x5c') →
      ∀ (f : Nat) (rest : List Char),
        parseTemplateF (lits.length + f) (lits ++ rest)
          = (parseTemplateF f rest).map (fun ts => lits.map TItem.lit ++ ts) := by
  intro lits
  induction lits with
  | nil =>
    intro _ f rest
    simp only [List.length_nil, Nat.zero_add, List.nil_append, List.map_nil]
    cases parseTemplateF f rest <;> rfl
  | cons c l2 ih =>
    intro hbs f rest
    have hc : ¬ (c = '\x5c') := hbs c (by simp)
    have hl2 : ∀ ch ∈ l2, ch ≠ '\x5c' := fun ch hm => hbs ch (List.mem_cons_of_mem c hm)
    have harith : (c :: l2).length + f = (l2.length + f) + 1 := by
      simp only [List.length_cons]
      omega
    rw [harith, List.cons_append]
    simp only [parseTemplateF]
    rw [if_neg hc, ih hl2 f rest]
    cases parseTemplateF f rest with
    | none => rfl
    | some ts => simp [List.map_cons, List.cons_append]

theorem parseTemplateF_g1 (m : Nat) (r : List Char) :
    parseTemplateF (m + 1) ('\x5c' :: '1' :: '\n' :: r)
      = (parseTemplateF m ('\n' :: r)).map (fun ts => TItem.grp 1 :: ts) := rfl

theorem parseTemplateF_g2_end (m : Nat) :
    parseTemplateF (m + 2) ['\x5c', '2'] = some [TItem.grp 2] := rfl

theorem parseTemplate_noBS {nc : List Char} (hbs : ∀ ch ∈ nc, ch ≠ '\x5c') :
    parseTemplate (templateOf nc) = some (baseItems nc) := by
  unfold parseTemplate templateOf
  have hlen : ('\x5c' :: '1' :: '\n' :: (nc ++ '\n' :: '\x5c' :: '2' :: [])).length + 1
      = (nc.length + 6) + 1 := by
    simp only [List.length_cons, List.length_append, List.length_nil]
  rw [hlen, parseTemplateF_g1]
  have hhyp : ∀ ch ∈ ('\n' :: (nc ++ ['\n'])), ch ≠ '\x5c' := by
    intro ch hm
    rcases List.mem_cons.mp hm with h | h
    · subst h; decide
    · rcases List.mem_append.mp h with h2 | h2
      · exact hbs ch h2
      · have he : ch = '\n' := by simpa using h2
        subst he; decide
  have heq := parseTemplateF_lits ('\n' :: (nc ++ ['\n'])) hhyp 4 ['\x5c', '2']
  have hlen2 : ('\n' :: (nc ++ ['\n'])).length + 4 = nc.length + 6 := by
    simp only [List.length_cons, List.length_append, List.length_nil]
  have hlist : ('\n' :: (nc ++ ['\n'])) ++ ['\x5c', '2']
      = '\n' :: (nc ++ '\n' :: '\x5c' :: '2' :: []) := by
    simp [List.append_assoc]
  rw [hlen2, hlist] at heq
  rw [heq, show parseTemplateF 4 ['\x5c', '2'] = some [TItem.grp 2] from rfl]
  rfl

theorem subAllT_unfold (sm em : List Char) (items : List TItem) (f : Nat) (doc : List Char) :
    subAllT sm em items (f + 1) doc =
      match findSub sm doc with
      | none => doc
      | some i =>
        match findSub em (doc.drop (i + sm.length)) with
        | none => doc
        | some j =>
          doc.take i ++
            (renderT ((doc.drop i).take (sm.length + j + em.length)) sm em items ++
              subAllT sm em items f ((doc.drop (i + sm.length)).drop (j + em.length))) := rfl

theorem subAllT_no_sm {sm doc : List Char} (em : List Char) (items : List TItem)
    (h : findSub sm doc = none) : ∀ f, subAllT sm em items f doc = doc := by
  intro f
  cases f with
  | zero => rfl
  | succ f =>
    rw [subAllT_unfold]
    simp [h]

theorem subAllT_no_em {sm em doc : List Char} {i : Nat} (items : List TItem)
    (h1 : findSub sm doc = some i)
    (h2 : findSub em (doc.drop (i + sm.length)) = none) :
    ∀ f, subAllT sm em items f doc = doc := by
  intro f
  cases f with
  | zero => rfl
  | succ f =>
    rw [subAllT_unfold]
    simp [h1, h2]

theorem subAllT_baseItems (sm em nc : List Char) :
    ∀ (f : Nat) (doc : List Char),
      subAllT sm em (baseItems nc) f doc = subAllF sm em nc f doc := by
  intro f
  induction f with
  | zero => intro doc; rfl
  | succ f ih =>
    intro doc
    rw [subAllT_unfold, subAllF_unfold]
    cases h1 : findSub sm doc with
    | none => rfl
    | some i =>
      cases h2 : findSub em (doc.drop (i + sm.length)) with
      | none => simp only [h2]
      | some j =>
        simp only [h2]
        rw [renderT_base, ih]
        simp [List.append_assoc]

theorem write_region_noBS {nc : List Char} (name : List Char)
    (hbs : ∀ ch ∈ nc, ch ≠ '\x5c') (doc : List Char) :
    write_region name nc doc = some (writeRegionL name nc doc) := by
  unfold write_region
  rw [parseTemplate_noBS hbs]
  show some (subAllT (startM name) (endM name) (baseItems nc) doc.length doc)
      = some (writeRegionL name nc doc)
  rw [subAllT_baseItems]
  rfl

/-! ## Facts about whitespace trimming -/

theorem dropWhile_idem (p : Char → Bool) (l : List Char) :
    (l.dropWhile p).dropWhile p = l.dropWhile p := by
  induction l with
  | nil => rfl
  | cons c cs ih =>
    by_cases hc : p c = true
    · simp [List.dropWhile_cons, hc, ih]
    · simp [List.dropWhile_cons, hc]

theorem dropWhile_shape (p : Char → Bool) (l : List Char) :
    l.dropWhile p = [] ∨ ∃ c cs, l.dropWhile p = c :: cs ∧ p c = false := by
  induction l with
  | nil => left; rfl
  | cons c cs ih =>
    by_cases hc : p c = true
    · simpa [List.dropWhile_cons, hc] using ih
    · right
      exact ⟨c, cs, by simp [List.dropWhile_cons, hc], by simpa using hc⟩

theorem dropWhile_suffix_exists (p : Char → Bool) (l : List Char) :
    ∃ t, l = t ++ l.dropWhile p := by
  induction l with
  | nil => exact ⟨[], rfl⟩
  | cons c cs ih =>
    by_cases hc : p c = true
    · rcases ih with ⟨t, ht⟩
      refine ⟨c :: t, ?_⟩
      simp only [List.dropWhile_cons, hc, if_true, List.cons_append]
      exact congrArg (c :: ·) ht
    · exact ⟨[], by simp [List.dropWhile_cons, hc]⟩

theorem dropTail_pre (p : Char → Bool) (l : List Char) :
    ∃ t, l = dropTail p l ++ t := by
  rcases dropWhile_suffix_exists p l.reverse with ⟨t, ht⟩
  refine ⟨t.reverse, ?_⟩
  have h := congrArg List.reverse ht
  simpa [dropTail] using h

theorem dropWhile_fix_dropTail {p : Char → Bool} {l : List Char}
    (h : l.dropWhile p = l) : (dropTail p l).dropWhile p = dropTail p l := by
  rcases dropTail_pre p l with ⟨t, ht⟩
  cases hd : dropTail p l with
  | nil => rfl
  | cons c cs =>
    have hl : l = c :: (cs ++ t) := by rw [ht, hd]; simp
    have hpc : p c = false := by
      rcases dropWhile_shape p l with hnil | ⟨c', cs', hc', hp⟩
      · rw [h, hl] at hnil; cases hnil
      · rw [h, hl] at hc'
        injection hc' with e1 e2
        rw [e1]
        exact hp
    simp [List.dropWhile_cons, hpc]

theorem dropTail_idem (p : Char → Bool) (l : List Char) :
    dropTail p (dropTail p l) = dropTail p l := by
  simp [dropTail, List.reverse_reverse, dropWhile_idem]

theorem trimWs_dropWhile_fix (l : List Char) :
    (trimWs l).dropWhile isWsC = trimWs l :=
  dropWhile_fix_dropTail (dropWhile_idem _ _)

theorem trimWs_dropTail_fix (l : List Char) :
    dropTail isWsC (trimWs l) = trimWs l := by
  simp [trimWs, dropTail_idem]

theorem trimWs_pad (l : List Char) :
    trimWs ('\n' :: (trimWs l ++ ['\n'])) = trimWs l := by
  have hnl : isWsC '\n' = true := by decide
  have hfixA : (trimWs l).dropWhile isWsC = trimWs l := trimWs_dropWhile_fix l
  have hfixB : (trimWs l).reverse.dropWhile isWsC = (trimWs l).reverse := by
    have h := congrArg List.reverse (trimWs_dropTail_fix l)
    simpa [dropTail] using h
  rcases dropWhile_shape isWsC (trimWs l) with hnil | ⟨c, cs, hc, hp⟩
  · rw [hfixA] at hnil
    rw [hnil]
    decide
  · rw [hfixA] at hc
    rw [hc] at hfixB ⊢
    simp only [List.reverse_cons] at hfixB
    simp [trimWs, dropTail, List.dropWhile_cons, hnl, hp, hfixB]

/-! ## Region read and write at an explicit decomposition -/

theorem readRegionL_at {name p1 s tail : List Char}
    (h1 : findSub (startM name) (p1 ++ startM name ++ s ++ endM name ++ tail) = some p1.length)
    (h2 : findSub (endM name) (s ++ endM name ++ tail) = some s.length) :
    readRegionL name (p1 ++ startM name ++ s ++ endM name ++ tail) = some (trimWs s) := by
  have hdrop : (p1 ++ startM name ++ s ++ endM name ++ tail).drop
      (p1.length + (startM name).length) = s ++ endM name ++ tail := by
    have hassoc : p1 ++ startM name ++ s ++ endM name ++ tail
        = (p1 ++ startM name) ++ (s ++ endM name ++ tail) := by
      simp [List.append_assoc]
    rw [hassoc, ← List.length_append, List.drop_left]
  have htake : (s ++ endM name ++ tail).take s.length = s := by
    have hassoc : s ++ endM name ++ tail = s ++ (endM name ++ tail) := by
      simp [List.append_assoc]
    rw [hassoc, List.take_left]
  simp only [readRegionL, h1, hdrop, h2, htake]

theorem writeRegionL_unique {name c p1 s tail : List Char}
    (h1 : findSub (startM name) (p1 ++ startM name ++ s ++ endM name ++ tail) = some p1.length)
    (h2 : findSub (endM name) (s ++ endM name ++ tail) = some s.length)
    (h3 : findSub (startM name) tail = none) :
    writeRegionL name c (p1 ++ startM name ++ s ++ endM name ++ tail) =
      p1 ++ startM name ++ '\n' :: (c ++ '\n' :: (endM name ++ tail)) := by
  have hdrop : (p1 ++ startM name ++ s ++ endM name ++ tail).drop
      (p1.length + (startM name).length) = s ++ endM name ++ tail := by
    have hassoc : p1 ++ startM name ++ s ++ endM name ++ tail
        = (p1 ++ startM name) ++ (s ++ endM name ++ tail) := by
      simp [List.append_assoc]
    rw [hassoc, ← List.length_append, List.drop_left]
  have hdrop2 : (s ++ endM name ++ tail).drop (s.length + (endM name).length) = tail := by
    have hassoc : s ++ endM name ++ tail = (s ++ endM name) ++ tail := by
      simp [List.append_assoc]
    rw [hassoc, ← List.length_append, List.drop_left]
  have htake : (p1 ++ startM name ++ s ++ endM name ++ tail).take p1.length = p1 := by
    have hassoc : p1 ++ startM name ++ s ++ endM name ++ tail
        = p1 ++ (startM name ++ s ++ endM name ++ tail) := by
      simp [List.append_assoc]
    rw [hassoc, List.take_left]
  have h2' : findSub (endM name) ((p1 ++ startM name ++ s ++ endM name ++ tail).drop
      (p1.length + (startM name).length)) = some s.length := by rw [hdrop]; exact h2
  rw [writeRegionL_step c h1 h2', hdrop, hdrop2, htake, writeRegionL_no_sm c h3]

/-- C8.  Absence safety, amended: for a word-character region name and a
document with no complete marker pair (either no start marker at all, or no
end marker after the first start marker), read_region returns none, and
write_region returns the document unchanged PROVIDED the replacement
template built from the content parses; re.sub compiles the template before
matching, so content with a bad escape raises re.error even on a marker-free
document. -/
theorem C8_thm {name doc : List Char} (x : List Char)
    (hname : name.all isWordC = true)
    (hx : (parseTemplate (templateOf x)).isSome = true)
    (h : findSub (startM name) doc = none ∨
         ∃ i, findSub (startM name) doc = some i ∧
           findSub (endM name) (doc.drop (i + (startM name).length)) = none) :
    readRegionL name doc = none ∧ write_region name x doc = some doc := by
  obtain ⟨items, hitems⟩ := Option.isSome_iff_exists.mp hx
  have hw : write_region name x doc
      = some (subAllT (startM name) (endM name) items doc.length doc) := by
    unfold write_region
    rw [hitems]
  rcases h with h1 | ⟨i, h1, h2⟩
  · exact ⟨by simp [readRegionL, h1],
      by rw [hw]; exact congrArg some (subAllT_no_sm (endM name) items h1 doc.length)⟩
  · exact ⟨by simp [readRegionL, h1, h2],
      by rw [hw]; exact congrArg some (subAllT_no_em items h1 h2 doc.length)⟩

/-- Witness for C8 at a concrete document with no markers and plain
content. -/
theorem C8_witness :
    ("Missing".data.all isWordC = true ∧
     (parseTemplate (templateOf "x".data)).isSome = true ∧
     (findSub (startM "Missing".data) "hello world".data = none ∨
       ∃ i, findSub (startM "Missing".data) "hello world".data = some i ∧
         findSub (endM "Missing".data)
           ("hello world".data.drop (i + (startM "Missing".data).length)) = none)) ∧
    (readRegionL "Missing".data "hello world".data = none ∧
      write_region "Missing".data "x".data "hello world".data = some "hello world".data) :=
  ⟨⟨by decide, by decide, Or.inl (by decide)⟩,
    C8_thm "x".data (by decide) (by decide) (Or.inl (by decide))⟩

/-- C8 counterexample: the claim promises the document back unchanged for
EVERY content, but content holding the bad escape backslash-q makes
write_region raise re.error (modelled as none) even though the document has
no marker pair at all. -/
theorem C8_cex :
    write_region "Missing".data ['\x5c', 'q'] "hello world".data = none ∧
    write_region "Missing".data ['\x5c', 'q'] "hello world".data
      ≠ some "hello world".data := by
  decide

/-- C5.  Round-trip stability, amended to word-character region names,
documents whose marker pair for the name is unique (no further start marker
after the pair), and region content free of backslashes (a backslash in the
written-back content would be template-processed by re.sub): writing back
the read content preserves everything outside the region byte-for-byte,
replaces the span by the newline-padded trimmed content, and that padded
content trims back to the original trimmed content. -/
theorem C5_amended {name p1 s tail : List Char}
    (hname : name.all isWordC = true)
    (hs : ∀ ch ∈ trimWs s, ch ≠ '\x5c')
    (h1 : findSub (startM name) (p1 ++ startM name ++ s ++ endM name ++ tail) = some p1.length)
    (h2 : findSub (endM name) (s ++ endM name ++ tail) = some s.length)
    (h3 : findSub (startM name) tail = none) :
    readRegionL name (p1 ++ startM name ++ s ++ endM name ++ tail) = some (trimWs s) ∧
    write_region name (trimWs s) (p1 ++ startM name ++ s ++ endM name ++ tail) =
      some (p1 ++ startM name ++ '\n' :: (trimWs s ++ '\n' :: (endM name ++ tail))) ∧
    trimWs ('\n' :: (trimWs s ++ ['\n'])) = trimWs s := by
  refine ⟨readRegionL_at h1 h2, ?_, trimWs_pad s⟩
  rw [write_region_noBS name hs]
  exact congrArg some (writeRegionL_unique h1 h2 h3)

/-- Witness for C5 at a concrete single-region document. -/
theorem C5_witness :
    ((['A'].all isWordC = true ∧
      ∀ ch ∈ trimWs " x ".data, ch ≠ '\x5c') ∧
     findSub (startM ['A']) ("pre ".data ++ startM ['A'] ++ " x ".data ++ endM ['A'] ++ " post".data)
        = some ("pre ".data).length ∧
     findSub (endM ['A']) (" x ".data ++ endM ['A'] ++ " post".data) = some (" x ".data).length ∧
     findSub (startM ['A']) " post".data = none) ∧
    (readRegionL ['A'] ("pre ".data ++ startM ['A'] ++ " x ".data ++ endM ['A'] ++ " post".data)
        = some (trimWs " x ".data) ∧
     write_region ['A'] (trimWs " x ".data)
        ("pre ".data ++ startM ['A'] ++ " x ".data ++ endM ['A'] ++ " post".data) =
       some ("pre ".data ++ startM ['A'] ++ '\n' :: (trimWs " x ".data ++ '\n' :: (endM ['A'] ++ " post".data))) ∧
     trimWs ('\n' :: (trimWs " x ".data ++ ['\n'])) = trimWs " x ".data) :=
  ⟨⟨⟨by decide, by decide⟩, by decide, by decide, by decide⟩,
    C5_amended (by decide) (by decide) (by decide) (by decide) (by decide)⟩

/-- C5 counterexample: a document with a duplicate marker pair for the same
name contains a well-formed region, but writing back the read content also
rewrites the second pair's span, so the text outside the first region is not
byte-identical (the suffix after the first pair, holding the second pair with
content y, is gone). -/
theorem C5_cex :
    readRegionL ['A']
        (startM ['A'] ++ "x".data ++ endM ['A'] ++ startM ['A'] ++ "y".data ++ endM ['A'])
      = some "x".data ∧
    (write_region ['A'] "x".data
        (startM ['A'] ++ "x".data ++ endM ['A'] ++ startM ['A'] ++ "y".data ++ endM ['A'])).map
        (fun w => (startM ['A'] ++ "y".data ++ endM ['A']).isSuffixOf w)
      = some false := by
  decide

/-- C7.  Isolation, amended to word-character region names, backslash-free
content (a backslash would be template-processed by re.sub) and documents in
which the written region's marker pair is unique: writing region A leaves
the prefix, both markers and the whole remainder, including region B with
its markers and content, character-for-character unchanged. -/
theorem C7_amended {nA nB c p1 sA q1 sB q2 : List Char}
    (hname : nA.all isWordC = true)
    (hc : ∀ ch ∈ c, ch ≠ '\x5c')
    (h1 : findSub (startM nA)
        (p1 ++ startM nA ++ sA ++ endM nA ++ (q1 ++ startM nB ++ sB ++ endM nB ++ q2))
        = some p1.length)
    (h2 : findSub (endM nA)
        (sA ++ endM nA ++ (q1 ++ startM nB ++ sB ++ endM nB ++ q2)) = some sA.length)
    (h3 : findSub (startM nA) (q1 ++ startM nB ++ sB ++ endM nB ++ q2) = none) :
    write_region nA c
        (p1 ++ startM nA ++ sA ++ endM nA ++ (q1 ++ startM nB ++ sB ++ endM nB ++ q2))
      = some (p1 ++ startM nA ++ '\n' :: (c ++ '\n' ::
          (endM nA ++ (q1 ++ startM nB ++ sB ++ endM nB ++ q2)))) := by
  rw [write_region_noBS nA hc]
  exact congrArg some (writeRegionL_unique h1 h2 h3)

/-- Witness for C7: writing region A with fresh content preserves region B
and all other text outside A's span. -/
theorem C7_witness :
    ((['A'].all isWordC = true ∧
      ∀ ch ∈ "z".data, ch ≠ '\x5c') ∧
     findSub (startM ['A'])
        ("p".data ++ startM ['A'] ++ "x".data ++ endM ['A'] ++
          ("q".data ++ startM ['B'] ++ "b".data ++ endM ['B'] ++ "t".data))
        = some ("p".data).length ∧
     findSub (endM ['A'])
        ("x".data ++ endM ['A'] ++
          ("q".data ++ startM ['B'] ++ "b".data ++ endM ['B'] ++ "t".data))
        = some ("x".data).length ∧
     findSub (startM ['A'])
        ("q".data ++ startM ['B'] ++ "b".data ++ endM ['B'] ++ "t".data) = none) ∧
    write_region ['A'] "z".data
        ("p".data ++ startM ['A'] ++ "x".data ++ endM ['A'] ++
          ("q".data ++ startM ['B'] ++ "b".data ++ endM ['B'] ++ "t".data))
      = some ("p".data ++ startM ['A'] ++ '\n' :: ("z".data ++ '\n' ::
          (endM ['A'] ++ ("q".data ++ startM ['B'] ++ "b".data ++ endM ['B'] ++ "t".data)))) :=
  ⟨⟨⟨by decide, by decide⟩, by decide, by decide, by decide⟩,
    C7_amended (by decide) (by decide) (by decide) (by decide) (by decide)⟩

/-- C7 counterexample: a document holding regions A, B and a second A pair
contains two disjoint regions with distinct names, yet writing region A also
rewrites the second A span, so text outside the matched span (after B) is
changed. -/
theorem C7_cex :
    readRegionL ['B']
        (startM ['A'] ++ "x".data ++ endM ['A'] ++ startM ['B'] ++ "b".data ++ endM ['B'] ++
          startM ['A'] ++ "y".data ++ endM ['A'])
      = some "b".data ∧
    (write_region ['A'] "z".data
        (startM ['A'] ++ "x".data ++ endM ['A'] ++ startM ['B'] ++ "b".data ++ endM ['B'] ++
          startM ['A'] ++ "y".data ++ endM ['A'])).map
        (fun w => (startM ['B'] ++ "b".data ++ endM ['B'] ++
          startM ['A'] ++ "y".data ++ endM ['A']).isSuffixOf w)
      = some false := by
  decide

/-- Write shape on a document holding exactly two marker pairs for the same
name: the global substitution replaces both spans. -/
theorem writeRegionL_two_pairs {name c p1 s1 mid s2 tail : List Char}
    (h1 : findSub (startM name)
        (p1 ++ startM name ++ s1 ++ endM name ++
          (mid ++ startM name ++ s2 ++ endM name ++ tail)) = some p1.length)
    (h2 : findSub (endM name)
        (s1 ++ endM name ++ (mid ++ startM name ++ s2 ++ endM name ++ tail)) = some s1.length)
    (h3 : findSub (startM name) (mid ++ startM name ++ s2 ++ endM name ++ tail) = some mid.length)
    (h4 : findSub (endM name) (s2 ++ endM name ++ tail) = some s2.length)
    (h5 : findSub (startM name) tail = none) :
    writeRegionL name c
        (p1 ++ startM name ++ s1 ++ endM name ++
          (mid ++ startM name ++ s2 ++ endM name ++ tail))
      = p1 ++ startM name ++ '\n' :: (c ++ '\n' :: (endM name ++
          (mid ++ startM name ++ '\n' :: (c ++ '\n' :: (endM name ++ tail))))) := by
  have hdrop : (p1 ++ startM name ++ s1 ++ endM name ++
      (mid ++ startM name ++ s2 ++ endM name ++ tail)).drop
      (p1.length + (startM name).length)
      = s1 ++ endM name ++ (mid ++ startM name ++ s2 ++ endM name ++ tail) := by
    have hassoc : p1 ++ startM name ++ s1 ++ endM name ++
        (mid ++ startM name ++ s2 ++ endM name ++ tail)
        = (p1 ++ startM name) ++
          (s1 ++ endM name ++ (mid ++ startM name ++ s2 ++ endM name ++ tail)) := by
      simp [List.append_assoc]
    rw [hassoc, ← List.length_append, List.drop_left]
  have hdrop2 : (s1 ++ endM name ++ (mid ++ startM name ++ s2 ++ endM name ++ tail)).drop
      (s1.length + (endM name).length)
      = mid ++ startM name ++ s2 ++ endM name ++ tail := by
    have hassoc : s1 ++ endM name ++ (mid ++ startM name ++ s2 ++ endM name ++ tail)
        = (s1 ++ endM name) ++ (mid ++ startM name ++ s2 ++ endM name ++ tail) := by
      simp [List.append_assoc]
    rw [hassoc, ← List.length_append, List.drop_left]
  have htake : (p1 ++ startM name ++ s1 ++ endM name ++
      (mid ++ startM name ++ s2 ++ endM name ++ tail)).take p1.length = p1 := by
    have hassoc : p1 ++ startM name ++ s1 ++ endM name ++
        (mid ++ startM name ++ s2 ++ endM name ++ tail)
        = p1 ++ (startM name ++ s1 ++ endM name ++
            (mid ++ startM name ++ s2 ++ endM name ++ tail)) := by
      simp [List.append_assoc]
    rw [hassoc, List.take_left]
  have h2' : findSub (endM name) ((p1 ++ startM name ++ s1 ++ endM name ++
      (mid ++ startM name ++ s2 ++ endM name ++ tail)).drop
      (p1.length + (startM name).length)) = some s1.length := by
    rw [hdrop]; exact h2
  rw [writeRegionL_step c h1 h2', hdrop, hdrop2, htake, writeRegionL_unique h3 h4 h5]

/-- C3.  Duplicate marker pairs, amended to word-character region names and
backslash-free content: read_region is first-match and returns the first
pair's trimmed content, but write_region performs a global substitution and
replaces the spans of BOTH pairs, not only the first. -/
theorem C3_amended {name c p1 s1 mid s2 tail : List Char}
    (hname : name.all isWordC = true)
    (hc : ∀ ch ∈ c, ch ≠ '\x5c')
    (h1 : findSub (startM name)
        (p1 ++ startM name ++ s1 ++ endM name ++
          (mid ++ startM name ++ s2 ++ endM name ++ tail)) = some p1.length)
    (h2 : findSub (endM name)
        (s1 ++ endM name ++ (mid ++ startM name ++ s2 ++ endM name ++ tail)) = some s1.length)
    (h3 : findSub (startM name) (mid ++ startM name ++ s2 ++ endM name ++ tail) = some mid.length)
    (h4 : findSub (endM name) (s2 ++ endM name ++ tail) = some s2.length)
    (h5 : findSub (startM name) tail = none) :
    readRegionL name
        (p1 ++ startM name ++ s1 ++ endM name ++
          (mid ++ startM name ++ s2 ++ endM name ++ tail)) = some (trimWs s1) ∧
    write_region name c
        (p1 ++ startM name ++ s1 ++ endM name ++
          (mid ++ startM name ++ s2 ++ endM name ++ tail))
      = some (p1 ++ startM name ++ '\n' :: (c ++ '\n' :: (endM name ++
          (mid ++ startM name ++ '\n' :: (c ++ '\n' :: (endM name ++ tail)))))) := by
  refine ⟨readRegionL_at h1 h2, ?_⟩
  rw [write_region_noBS name hc]
  exact congrArg some (writeRegionL_two_pairs h1 h2 h3 h4 h5)

/-- Witness for C3 at a concrete duplicate-pair document. -/
theorem C3_witness :
    ((['A'].all isWordC = true ∧
      ∀ ch ∈ "z".data, ch ≠ '\x5c') ∧
     findSub (startM ['A'])
        ("p".data ++ startM ['A'] ++ "x".data ++ endM ['A'] ++
          ("m".data ++ startM ['A'] ++ "y".data ++ endM ['A'] ++ "t".data))
        = some ("p".data).length ∧
     findSub (endM ['A'])
        ("x".data ++ endM ['A'] ++
          ("m".data ++ startM ['A'] ++ "y".data ++ endM ['A'] ++ "t".data))
        = some ("x".data).length ∧
     findSub (startM ['A'])
        ("m".data ++ startM ['A'] ++ "y".data ++ endM ['A'] ++ "t".data)
        = some ("m".data).length ∧
     findSub (endM ['A']) ("y".data ++ endM ['A'] ++ "t".data) = some ("y".data).length ∧
     findSub (startM ['A']) "t".data = none) ∧
    (readRegionL ['A']
        ("p".data ++ startM ['A'] ++ "x".data ++ endM ['A'] ++
          ("m".data ++ startM ['A'] ++ "y".data ++ endM ['A'] ++ "t".data)) = some (trimWs "x".data) ∧
     write_region ['A'] "z".data
        ("p".data ++ startM ['A'] ++ "x".data ++ endM ['A'] ++
          ("m".data ++ startM ['A'] ++ "y".data ++ endM ['A'] ++ "t".data))
      = some ("p".data ++ startM ['A'] ++ '\n' :: ("z".data ++ '\n' :: (endM ['A'] ++
          ("m".data ++ startM ['A'] ++ '\n' :: ("z".data ++ '\n' :: (endM ['A'] ++ "t".data))))))) :=
  ⟨⟨⟨by decide, by decide⟩, by decide, by decide, by decide, by decide, by decide⟩,
    C3_amended (by decide) (by decide) (by decide) (by decide) (by decide) (by decide) (by decide)⟩

/-- C3 counterexample: on a duplicate-pair document, write_region does not
leave the second pair's span unchanged, contradicting the claim that only
the first pair's span is replaced. -/
theorem C3_cex :
    write_region ['A'] "z".data
        (startM ['A'] ++ "x".data ++ endM ['A'] ++ startM ['A'] ++ "y".data ++ endM ['A'])
      ≠ some (startM ['A'] ++ '\n' :: ("z".data ++ '\n' :: endM ['A']) ++
          startM ['A'] ++ "y".data ++ endM ['A']) := by
  decide

/-! ## Idempotence of the global substitution for clean content -/

theorem take_append_left {A B : List Char} {n : Nat} (h : A.length = n) :
    (A ++ B).take n = A := by
  subst h
  exact List.take_left A B

theorem drop_append_left {A B : List Char} {n : Nat} (h : A.length = n) :
    (A ++ B).drop n = B := by
  subst h
  exact List.drop_left A B

theorem findSub_preserved {pat doc X : List Char} {i : Nat}
    (h1 : findSub pat doc = some i) :
    findSub pat (doc.take i ++ pat ++ X) = some i := by
  have hle := findSub_le h1
  have hlen : (doc.take i).length = i := by
    rw [List.length_take]
    omega
  apply findSub_of
  · have hdrop : (doc.take i ++ pat ++ X).drop i = pat ++ X := by
      have hassoc : doc.take i ++ pat ++ X = doc.take i ++ (pat ++ X) := by
        simp [List.append_assoc]
      rw [hassoc]
      exact drop_append_left hlen
    rw [hdrop]
    exact leadMatch_self_append pat X
  · intro k hk
    have hlen2 : (doc.take i ++ pat).length = i + pat.length := by
      simp [List.length_append, hlen]
    have e1 : (doc.take i ++ pat ++ X).take (i + pat.length) = doc.take i ++ pat :=
      take_append_left hlen2
    have e2 : doc.take (i + pat.length) = doc.take i ++ pat := by
      conv_lhs => rw [findSub_decomp h1]
      exact take_append_left hlen2
    have hagree : (doc.take i ++ pat ++ X).take (i + pat.length) = doc.take (i + pat.length) := by
      rw [e1, e2]
    have hsame := leadMatch_agree hagree (show k + pat.length ≤ i + pat.length by omega)
    rw [hsame]
    exact findSub_spec2 h1 k hk

theorem writeRegionL_idem_aux {name c : List Char}
    (hc : findSub (endM name) ('\n' :: (c ++ '\n' :: endM name)) = some (c.length + 2)) :
    ∀ n doc, doc.length ≤ n →
      writeRegionL name c (writeRegionL name c doc) = writeRegionL name c doc := by
  intro n
  induction n with
  | zero =>
    intro doc hlen
    have hnil : doc = [] := List.length_eq_zero.mp (by omega)
    subst hnil
    rfl
  | succ n ih =>
    intro doc hlen
    cases h1 : findSub (startM name) doc with
    | none =>
      rw [writeRegionL_no_sm c h1]
      exact writeRegionL_no_sm c h1
    | some i =>
      cases h2 : findSub (endM name) (doc.drop (i + (startM name).length)) with
      | none =>
        rw [writeRegionL_no_em c h1 h2]
        exact writeRegionL_no_em c h1 h2
      | some j =>
        have hsm := startM_ne_nil name
        have hle := findSub_le h1
        have hlentake : (doc.take i).length = i := by
          rw [List.length_take]
          omega
        have hstep := writeRegionL_step c h1 h2
        have hXshape : '\n' :: (c ++ '\n' :: (endM name ++ writeRegionL name c
              ((doc.drop (i + (startM name).length)).drop (j + (endM name).length))))
            = ('\n' :: (c ++ '\n' :: endM name)) ++ writeRegionL name c
              ((doc.drop (i + (startM name).length)).drop (j + (endM name).length)) := by
          simp [List.append_assoc]
        have hlen1 : (doc.take i ++ startM name).length = i + (startM name).length := by
          simp [List.length_append, hlentake]
        have hbigdrop : (doc.take i ++ startM name ++ ('\n' :: (c ++ '\n' :: (endM name ++
              writeRegionL name c
                ((doc.drop (i + (startM name).length)).drop (j + (endM name).length)))))).drop
              (i + (startM name).length)
            = '\n' :: (c ++ '\n' :: (endM name ++ writeRegionL name c
                ((doc.drop (i + (startM name).length)).drop (j + (endM name).length)))) := by
          have hassoc : doc.take i ++ startM name ++ ('\n' :: (c ++ '\n' :: (endM name ++
                writeRegionL name c
                  ((doc.drop (i + (startM name).length)).drop (j + (endM name).length)))))
              = (doc.take i ++ startM name) ++ ('\n' :: (c ++ '\n' :: (endM name ++
                writeRegionL name c
                  ((doc.drop (i + (startM name).length)).drop (j + (endM name).length))))) := rfl
          rw [hassoc]
          exact drop_append_left hlen1
        have hG1 : findSub (startM name)
            (doc.take i ++ startM name ++ ('\n' :: (c ++ '\n' :: (endM name ++
              writeRegionL name c
                ((doc.drop (i + (startM name).length)).drop (j + (endM name).length))))))
            = some i := findSub_preserved h1
        have hG2 : findSub (endM name)
            ((doc.take i ++ startM name ++ ('\n' :: (c ++ '\n' :: (endM name ++
              writeRegionL name c
                ((doc.drop (i + (startM name).length)).drop (j + (endM name).length)))))).drop
              (i + (startM name).length))
            = some (c.length + 2) := by
          rw [hbigdrop, hXshape]
          exact findSub_append_right hc
        have hpadlen : ('\n' :: (c ++ '\n' :: endM name)).length
            = c.length + 2 + (endM name).length := by
          simp [List.length_cons, List.length_append]
          omega
        have hXdrop : ('\n' :: (c ++ '\n' :: (endM name ++ writeRegionL name c
              ((doc.drop (i + (startM name).length)).drop (j + (endM name).length))))).drop
              (c.length + 2 + (endM name).length)
            = writeRegionL name c
                ((doc.drop (i + (startM name).length)).drop (j + (endM name).length)) := by
          rw [hXshape]
          exact drop_append_left hpadlen
        have hbigtake : (doc.take i ++ startM name ++ ('\n' :: (c ++ '\n' :: (endM name ++
              writeRegionL name c
                ((doc.drop (i + (startM name).length)).drop (j + (endM name).length)))))).take i
            = doc.take i := by
          have hassoc : doc.take i ++ startM name ++ ('\n' :: (c ++ '\n' :: (endM name ++
                writeRegionL name c
                  ((doc.drop (i + (startM name).length)).drop (j + (endM name).length)))))
              = doc.take i ++ (startM name ++ ('\n' :: (c ++ '\n' :: (endM name ++
                writeRegionL name c
                  ((doc.drop (i + (startM name).length)).drop (j + (endM name).length)))))) := by
            simp [List.append_assoc]
          rw [hassoc]
          exact take_append_left hlentake
        have hremlen : ((doc.drop (i + (startM name).length)).drop
            (j + (endM name).length)).length ≤ n := by
          have hs : 0 < (startM name).length := List.length_pos.mpr hsm
          simp only [List.length_drop]
          omega
        have hWrem := ih ((doc.drop (i + (startM name).length)).drop (j + (endM name).length))
          hremlen
        rw [hstep]
        rw [writeRegionL_step c hG1 hG2]
        rw [hbigtake, hbigdrop, hXdrop, hWrem]

/-- C6.  Idempotent double-write, amended to word-character region names and
backslash-free content whose newline-padded form introduces no end-marker
occurrence before the closing end marker (first occurrence of the end marker
inside newline-padded content plus end marker sits exactly at the closing
marker): writing the result of a write again equals writing once, on every
document.  Content containing the end marker breaks the property, and a
backslash in the content would be template-processed by re.sub. -/
theorem C6_amended {name c : List Char}
    (hname : name.all isWordC = true)
    (hbs : ∀ ch ∈ c, ch ≠ '\x5c')
    (hc : findSub (endM name) ('\n' :: (c ++ '\n' :: endM name)) = some (c.length + 2))
    (doc : List Char) :
    (write_region name c doc).bind (write_region name c) = write_region name c doc := by
  rw [write_region_noBS name hbs doc]
  show write_region name c (writeRegionL name c doc) = some (writeRegionL name c doc)
  rw [write_region_noBS name hbs]
  exact congrArg some (writeRegionL_idem_aux hc doc.length doc (Nat.le_refl _))

/-- Witness for C6 at a concrete document and plain content. -/
theorem C6_witness :
    (['A'].all isWordC = true ∧
     (∀ ch ∈ "z".data, ch ≠ '\x5c') ∧
     findSub (endM ['A']) ('\n' :: ("z".data ++ '\n' :: endM ['A'])) = some ("z".data.length + 2)) ∧
    (write_region ['A'] "z".data (startM ['A'] ++ "x".data ++ endM ['A'])).bind
        (write_region ['A'] "z".data)
      = write_region ['A'] "z".data (startM ['A'] ++ "x".data ++ endM ['A']) :=
  ⟨⟨by decide, by decide, by decide⟩,
    C6_amended (by decide) (by decide) (by decide) (startM ['A'] ++ "x".data ++ endM ['A'])⟩

/-- C6 counterexample: writing content equal to the end marker itself is not
idempotent; the second write duplicates trailing text. -/
theorem C6_cex :
    (write_region ['A'] (endM ['A'])
        (startM ['A'] ++ "x".data ++ endM ['A'])).bind (write_region ['A'] (endM ['A']))
      ≠ write_region ['A'] (endM ['A']) (startM ['A'] ++ "x".data ++ endM ['A']) := by
  decide

/-! ## Facts about the line scanners -/

theorem ws_not_word {ch : Char} (h : isWsC ch = true) : isWordC ch = false := by
  simp only [isWsC, Bool.or_eq_true, beq_iff_eq] at h
  rcases h with ((((rfl | rfl) | rfl) | rfl) | rfl) | rfl <;> decide

theorem word_not_ws {ch : Char} (h : isWordC ch = true) : isWsC ch = false := by
  cases hws : isWsC ch
  · rfl
  · rw [ws_not_word hws] at h
    cases h

theorem word_not_dash {ch : Char} (h : isWordC ch = true) : ch ≠ '-' := by
  intro he
  subst he
  simp [isWordC] at h

theorem takeWhile_head {p : Char → Bool} {l w : List Char} {x : Char}
    (h : l.takeWhile p = x :: w) : ∃ cs, l = x :: cs ∧ p x = true := by
  cases l with
  | nil => cases h
  | cons c cs =>
    rw [List.takeWhile_cons] at h
    by_cases hp : p c = true
    · rw [if_pos hp] at h
      injection h with e1 e2
      subst e1
      exact ⟨cs, rfl, hp⟩
    · simp only [Bool.not_eq_true] at hp
      rw [hp] at h
      simp at h

theorem kvMatch_shape {l k v : List Char} (h : kvMatch l = some (k, v)) :
    ∃ ch cs, l = ch :: cs ∧ isWordC ch = true ∧ k = l.takeWhile isWordC := by
  unfold kvMatch at h
  split at h
  · next hd tl rest heq1 heq2 =>
      injection h with hpair
      injection hpair with hk hv
      rcases takeWhile_head heq1 with ⟨cs, hl, hp⟩
      exact ⟨hd, cs, hl, hp, hk.symm⟩
  · cases h

theorem takeWhile_append_all {k : List Char} (c : Char) (r : List Char)
    (hall : k.all isWordC = true) (hc : isWordC c = false) :
    (k ++ c :: r).takeWhile isWordC = k ∧ (k ++ c :: r).dropWhile isWordC = c :: r := by
  induction k with
  | nil => simp [List.takeWhile_cons, List.dropWhile_cons, hc]
  | cons a as ih =>
    simp only [List.all_cons, Bool.and_eq_true] at hall
    obtain ⟨ha, has⟩ := hall
    obtain ⟨iht, ihd⟩ := ih has
    constructor
    · simp [List.cons_append, List.takeWhile_cons, ha, iht]
    · simp [List.cons_append, List.dropWhile_cons, ha, ihd]

theorem kvMatch_build {k v : List Char}
    (hk1 : k ≠ []) (hk2 : k.all isWordC = true) :
    kvMatch (k ++ ':' :: v) = some (k, v.dropWhile isWsC) := by
  obtain ⟨ht, hd⟩ := takeWhile_append_all ':' v hk2 (by decide)
  cases k with
  | nil => exact absurd rfl hk1
  | cons kh kt =>
    unfold kvMatch
    rw [ht, hd]
    rfl

theorem slistMatch_shape {d w : List Char} (h : slistMatch d = some w) :
    ∃ rest, d.dropWhile isWsC = '-' :: rest ∧ w = rest.dropWhile isWsC := by
  unfold slistMatch at h
  split at h
  · next rest heq =>
      injection h with hw
      exact ⟨rest, heq, hw.symm⟩
  · cases h

theorem kv_slistMatch_none {l k v : List Char} (h : kvMatch l = some (k, v)) :
    slistMatch l = none := by
  rcases kvMatch_shape h with ⟨ch, cs, rfl, hw, -⟩
  have hws : isWsC ch = false := word_not_ws hw
  have hdw : (ch :: cs).dropWhile isWsC = ch :: cs := by
    simp [List.dropWhile_cons, hws]
  unfold slistMatch
  rw [hdw]
  have hch : ch ≠ '-' := word_not_dash hw
  split
  · next rest heq =>
      injection heq with e1 e2
      exact absurd e1 hch
  · rfl

theorem kv_flistMatch_none {l k v : List Char} (h : kvMatch l = some (k, v)) :
    flistMatch l = none := by
  rcases kvMatch_shape h with ⟨ch, cs, rfl, hw, -⟩
  simp [flistMatch, word_not_ws hw]

theorem kv_propMatch_none {l k v : List Char} (h : kvMatch l = some (k, v)) :
    propMatch l = none := by
  rcases kvMatch_shape h with ⟨ch, cs, rfl, hw, -⟩
  simp [propMatch, word_not_ws hw]

theorem dropTail_cons_ne_nil {p : Char → Bool} {c : Char} {cs : List Char}
    (hc : p c = false) : dropTail p (c :: cs) ≠ [] := by
  intro hdt
  unfold dropTail at hdt
  have hrev : (c :: cs).reverse.dropWhile p = [] := by
    have h2 := congrArg List.reverse hdt
    simpa using h2
  have hmem : c ∈ (c :: cs).reverse := by simp
  have h3 := List.dropWhile_eq_nil_iff.mp hrev c hmem
  rw [hc] at h3
  cases h3

theorem trim_ne_nil_of_kv {l k v : List Char} (h : kvMatch l = some (k, v)) :
    (trimWs l).isEmpty = false := by
  rcases kvMatch_shape h with ⟨ch, cs, rfl, hw, -⟩
  have hws : isWsC ch = false := word_not_ws hw
  have hdw : (ch :: cs).dropWhile isWsC = ch :: cs := by
    simp [List.dropWhile_cons, hws]
  unfold trimWs
  rw [hdw]
  cases hdt : dropTail isWsC (ch :: cs) with
  | cons a as => rfl
  | nil => exact absurd hdt (dropTail_cons_ne_nil hws)

theorem trim_ne_nil_of_slist {d w : List Char} (h : slistMatch d = some w) :
    (trimWs d).isEmpty = false := by
  rcases slistMatch_shape h with ⟨rest, heq, -⟩
  unfold trimWs
  rw [heq]
  cases hdt : dropTail isWsC ('-' :: rest) with
  | cons a as => rfl
  | nil => exact absurd hdt (dropTail_cons_ne_nil (by decide))

theorem flistMatch_shape {d w : List Char} (h : flistMatch d = some w) :
    ∃ c cs, d = c :: cs ∧ isWsC c = true ∧ slistMatch d = some w := by
  cases d with
  | nil => cases h
  | cons c cs =>
    simp only [flistMatch] at h
    by_cases hws : isWsC c = true
    · rw [if_pos hws] at h
      exact ⟨c, cs, rfl, hws, h⟩
    · simp only [Bool.not_eq_true] at hws
      rw [hws] at h
      simp at h

theorem kvMatch_head_not_word {c : Char} {cs : List Char} (hc : isWordC c = false) :
    kvMatch (c :: cs) = none := by
  have ht : (c :: cs).takeWhile isWordC = [] := by
    simp [List.takeWhile_cons, hc]
  have hdw : (c :: cs).dropWhile isWordC = c :: cs := by
    simp [List.dropWhile_cons, hc]
  unfold kvMatch
  rw [ht, hdw]

theorem dash_propMatch_none {d w : List Char} (h : flistMatch d = some w) :
    propMatch d = none := by
  rcases flistMatch_shape h with ⟨c, cs, rfl, hws, hsl⟩
  rcases slistMatch_shape hsl with ⟨rest, heq, -⟩
  simp only [propMatch]
  rw [if_pos hws, heq]
  exact kvMatch_head_not_word (by decide)

theorem dash_kvMatch_none {d w : List Char} (h : flistMatch d = some w) :
    kvMatch d = none := by
  rcases flistMatch_shape h with ⟨c, cs, rfl, hws, -⟩
  exact kvMatch_head_not_word (ws_not_word hws)

/-! ## Behavior of single parser steps -/

theorem stepS_garbage {g : List Char} (h1 : slistMatch (dropTail isWsC g) = none)
    (h2 : kvMatch (dropTail isWsC g) = none) (st : SState) : stepS st g = st := by
  unfold stepS
  by_cases he : (dropTail isWsC g).isEmpty = true
  · simp [he]
  · simp only [Bool.not_eq_true] at he
    simp [he, h1, h2]

theorem stepF_garbage {g : List Char} (h1 : flistMatch g = none) (h2 : propMatch g = none)
    (h3 : kvMatch g = none) (st : FState) : stepF st g = st := by
  unfold stepF
  by_cases he : (trimWs g).isEmpty = true
  · simp [he]
  · simp only [Bool.not_eq_true] at he
    obtain ⟨res, ck, cur⟩ := st
    simp only [he, Bool.false_eq_true, if_false, h1, h2]
    cases cur <;> (unfold kvStepF; simp [h3])

theorem stepS_dash_skip {d w : List Char} (hd : slistMatch (dropTail isWsC d) = some w)
    {st : SState} (hil : st.inList = false) : stepS st d = st := by
  have hne : (dropTail isWsC d).isEmpty = false := by
    rcases slistMatch_shape hd with ⟨rest, heq, -⟩
    cases hx : dropTail isWsC d with
    | nil =>
      rw [hx] at heq
      simp at heq
    | cons a as => rfl
  obtain ⟨res, ck, cl, il⟩ := st
  simp only at hil
  subst hil
  unfold stepS
  simp only [hne, Bool.false_eq_true, if_false, hd]

theorem stepF_dash_skip {d w : List Char} (hd : flistMatch d = some w)
    {st : FState} (hcur : st.cur = none) : stepF st d = st := by
  have hne : (trimWs d).isEmpty = false := by
    rcases flistMatch_shape hd with ⟨c, cs, heq, hws, hsl⟩
    rw [heq]
    rw [heq] at hsl
    exact trim_ne_nil_of_slist hsl
  have hpm := dash_propMatch_none hd
  have hkv := dash_kvMatch_none hd
  obtain ⟨res, ck, cur⟩ := st
  simp only at hcur
  subst hcur
  unfold stepF
  simp only [hne, Bool.false_eq_true, if_false, hd, hpm]
  unfold kvStepF
  simp [hkv]

/-- Invariant of the sync-reader state: an open list always has a current key. -/
def SInvP (st : SState) : Prop := st.inList = true → st.curKey ≠ none

theorem initS_inv : SInvP initS := by
  intro h
  exact absurd h (by decide)

theorem stepS_inv {st : SState} (hinv : SInvP st) (raw : List Char) :
    SInvP (stepS st raw) := by
  obtain ⟨res, ck, cl, il⟩ := st
  unfold stepS
  by_cases he : (dropTail isWsC raw).isEmpty = true
  · simpa [he] using hinv
  · simp only [Bool.not_eq_true] at he
    simp only [he, Bool.false_eq_true, if_false]
    cases hsl : slistMatch (dropTail isWsC raw) with
    | some w =>
      cases ck <;> cases il <;> simp_all [SInvP]
    | none =>
      cases hkv : kvMatch (dropTail isWsC raw) with
      | none => simp only [SInvP]; simpa using hinv
      | some kv =>
        obtain ⟨key, v0⟩ := kv
        cases ck with
        | none =>
          cases il with
          | false =>
            simp only [SInvP]
            split
            · intro _; simp
            · split
              · intro h; exact absurd h (by simpa using hinv)
              · intro _; simp
          | true => exact absurd rfl (hinv rfl)
        | some ck0 =>
          cases il with
          | false =>
            simp only [SInvP]
            split
            · intro _; simp
            · split
              · intro h; simp
              · intro _; simp
          | true =>
            simp only [SInvP]
            split
            · intro _; simp
            · split
              · intro h; simp
              · intro _; simp

theorem foldl_stepS_inv : ∀ (ls : List (List Char)) (st : SState),
    SInvP st → SInvP (ls.foldl stepS st) := by
  intro ls
  induction ls with
  | nil => intro st h; exact h
  | cons x xs ih => intro st h; exact ih _ (stepS_inv h x)

theorem stepS_kv_closes {l k v0 : List Char}
    (hkv : kvMatch (dropTail isWsC l) = some (k, v0))
    (hv1 : trimWs v0 ≠ []) (hv2 : trimWs v0 ≠ lbrk)
    {st : SState} (hinv : SInvP st) : (stepS st l).inList = false := by
  have hsl : slistMatch (dropTail isWsC l) = none := kv_slistMatch_none hkv
  have hne : (dropTail isWsC l).isEmpty = false := by
    rcases kvMatch_shape hkv with ⟨ch, cs, hl, -, -⟩
    rw [hl]
    rfl
  have hval : ¬(trimWs v0 = [] ∨ trimWs v0 = lbrk) := by
    rintro (h | h)
    · exact hv1 h
    · exact hv2 h
  obtain ⟨res, ck, cl, il⟩ := st
  unfold stepS
  simp only [hne, Bool.false_eq_true, if_false, hsl, hkv]
  cases ck with
  | none =>
    cases il with
    | false =>
      rw [if_neg hval]
      split <;> rfl
    | true => exact absurd rfl (hinv rfl)
  | some ck0 =>
    cases il with
    | false =>
      rw [if_neg hval]
      split <;> rfl
    | true =>
      rw [if_neg hval]
      split <;> rfl

theorem stepF_kv_closes {l k v0 : List Char} (hkv : kvMatch l = some (k, v0))
    (hv1 : trimWs v0 ≠ []) (hv2 : trimWs v0 ≠ lbrk) (st : FState) :
    (stepF st l).cur = none := by
  have hfl : flistMatch l = none := kv_flistMatch_none hkv
  have hpm : propMatch l = none := kv_propMatch_none hkv
  have hne : (trimWs l).isEmpty = false := trim_ne_nil_of_kv hkv
  have hval : ¬(trimWs v0 = lbrk ∨ trimWs v0 = []) := by
    rintro (h | h)
    · exact hv2 h
    · exact hv1 h
  obtain ⟨res, ck, cur⟩ := st
  unfold stepF
  simp only [hne, Bool.false_eq_true, if_false, hfl, hpm]
  cases cur <;>
    (unfold kvStepF
     simp only [hkv]
     rw [if_neg hval]
     split <;> rfl)

/-- C2.  Orphaned list items, amended: in both readers, once a key is
assigned a non-list scalar value, a following dash line is silently dropped
(the parse of the lines with the dash line equals the parse without it); it
is NOT appended to any earlier key's list, because the scalar assignment
closes the open-list cursor in both implementations. -/
theorem C2_amended {pre post : List (List Char)} {l d : List Char} (k v0 w : List Char)
    (hl : kvMatch l = some (k, v0))
    (hltrim : dropTail isWsC l = l)
    (hv1 : trimWs v0 ≠ []) (hv2 : trimWs v0 ≠ lbrk)
    (hd : flistMatch d = some w)
    (hdtrim : dropTail isWsC d = d) :
    parseSlines (pre ++ l :: d :: post) = parseSlines (pre ++ l :: post) ∧
    parseFlines (pre ++ l :: d :: post) = parseFlines (pre ++ l :: post) := by
  have hl' : kvMatch (dropTail isWsC l) = some (k, v0) := by
    rw [hltrim]
    exact hl
  have hsd : slistMatch (dropTail isWsC d) = some w := by
    rcases flistMatch_shape hd with ⟨c, cs, -, -, hsl⟩
    rw [hdtrim]
    exact hsl
  constructor
  · unfold parseSlines
    congr 1
    rw [List.foldl_append, List.foldl_append]
    simp only [List.foldl_cons]
    rw [stepS_dash_skip hsd
      (stepS_kv_closes hl' hv1 hv2 (foldl_stepS_inv pre initS initS_inv))]
  · unfold parseFlines
    congr 1
    rw [List.foldl_append, List.foldl_append]
    simp only [List.foldl_cons]
    rw [stepF_dash_skip hd (stepF_kv_closes hl hv1 hv2 _)]

/-- Witness for C2: after key a opened a list and took item x, key b takes a
scalar; the following dash item y is dropped by both readers. -/
theorem C2_witness :
    (kvMatch "b: v".data = some ("b".data, "v".data) ∧
     dropTail isWsC "b: v".data = "b: v".data ∧
     trimWs "v".data ≠ [] ∧ trimWs "v".data ≠ lbrk ∧
     flistMatch "  - y".data = some "y".data ∧
     dropTail isWsC "  - y".data = "  - y".data) ∧
    (parseSlines (["a:".data, "  - x".data] ++ "b: v".data :: "  - y".data :: []) =
       parseSlines (["a:".data, "  - x".data] ++ "b: v".data :: []) ∧
     parseFlines (["a:".data, "  - x".data] ++ "b: v".data :: "  - y".data :: []) =
       parseFlines (["a:".data, "  - x".data] ++ "b: v".data :: [])) :=
  ⟨⟨by decide, by decide, by decide, by decide, by decide, by decide⟩,
    C2_amended "b".data "v".data "y".data
      (by decide) (by decide) (by decide) (by decide) (by decide) (by decide)⟩

/-- C2 counterexample: with key a holding list [x], then b: v, then a dash
item y, both readers drop y; the result is not the mapping with y appended to
a's list that the claim predicts. -/
theorem C2_cex :
    parse_yaml_simple "a:\n- x\nb: v\n- y".data
      = [("a".data, TVal.list [LItem.str "x".data]), ("b".data, TVal.str "v".data)] ∧
    parse_yaml_frontmatter "---\na:\n  - x\nb: v\n  - y\n---".data
      = some [("a".data, TVal.list [LItem.str "x".data]), ("b".data, TVal.str "v".data)] ∧
    [("a".data, TVal.list [LItem.str "x".data]), ("b".data, TVal.str "v".data)]
      ≠ [("a".data, TVal.list [LItem.str "x".data, LItem.str "y".data]),
         ("b".data, TVal.str "v".data)] :=
  ⟨by decide, by decide, by decide⟩

/-- C9.  Malformed-line tolerance: both readers are total functions, and a
line matching none of the recognized patterns leaves the parse unchanged:
parsing with the garbage line inserted anywhere equals parsing without it,
so it contributes no key or list entry and later valid lines still parse. -/
theorem C9_thm {pre post : List (List Char)} {g : List Char}
    (hS1 : slistMatch (dropTail isWsC g) = none)
    (hS2 : kvMatch (dropTail isWsC g) = none)
    (hF1 : flistMatch g = none) (hF2 : propMatch g = none) (hF3 : kvMatch g = none) :
    parseSlines (pre ++ g :: post) = parseSlines (pre ++ post) ∧
    parseFlines (pre ++ g :: post) = parseFlines (pre ++ post) := by
  constructor
  · unfold parseSlines
    congr 1
    rw [List.foldl_append, List.foldl_append]
    simp only [List.foldl_cons]
    rw [stepS_garbage hS1 hS2]
  · unfold parseFlines
    congr 1
    rw [List.foldl_append, List.foldl_append]
    simp only [List.foldl_cons]
    rw [stepF_garbage hF1 hF2 hF3]

/-- Witness for C9 with the garbage line of spec test 6 followed by a valid
line. -/
theorem C9_witness :
    (slistMatch (dropTail isWsC ": no key".data) = none ∧
     kvMatch (dropTail isWsC ": no key".data) = none ∧
     flistMatch ": no key".data = none ∧
     propMatch ": no key".data = none ∧
     kvMatch ": no key".data = none) ∧
    (parseSlines ([] ++ ": no key".data :: ["a: b".data]) = parseSlines ([] ++ ["a: b".data]) ∧
     parseFlines ([] ++ ": no key".data :: ["a: b".data]) = parseFlines ([] ++ ["a: b".data])) :=
  ⟨⟨by decide, by decide, by decide, by decide, by decide⟩,
    C9_thm (by decide) (by decide) (by decide) (by decide) (by decide)⟩

/-- C1.  Block list of objects, amended: only the frontmatter reader builds
the list of flat objects of spec test 5; the sync reader keeps each dash
payload as a plain string and ignores the indented tags line, yielding
the mapping items to the strings `name: foo` and `name: bar`. -/
theorem C1_amended :
    parse_yaml_simple "items:\n  - name: foo\n    tags: [x, y]\n  - name: bar".data
      = [("items".data, TVal.list [LItem.str "name: foo".data, LItem.str "name: bar".data])] ∧
    parse_yaml_frontmatter
        "---\nitems:\n  - name: foo\n    tags: [x, y]\n  - name: bar\n---".data
      = some [("items".data, TVal.list
          [LItem.obj [(nameKey, PVal.str "foo".data),
                      ("tags".data, PVal.strs ["x".data, "y".data])],
           LItem.obj [(nameKey, PVal.str "bar".data)]])] :=
  ⟨by decide, by decide⟩

/-- C1 counterexample: the sync reader does not return the object-shaped
mapping the claim asserts for the spec test 5 input. -/
theorem C1_cex :
    parse_yaml_simple "items:\n  - name: foo\n    tags: [x, y]\n  - name: bar".data
      ≠ [("items".data, TVal.list
          [LItem.obj [(nameKey, PVal.str "foo".data),
                      ("tags".data, PVal.strs ["x".data, "y".data])],
           LItem.obj [(nameKey, PVal.str "bar".data)]])] := by
  decide

/-! ## C4: quote stripping of scalars -/

theorem dropWhile_length_le (p : Char → Bool) (l : List Char) :
    (l.dropWhile p).length ≤ l.length := by
  induction l with
  | nil => simp
  | cons c cs ih =>
    rw [List.dropWhile_cons]
    by_cases hc : p c = true
    · rw [if_pos hc]
      simp only [List.length_cons]
      omega
    · rw [if_neg hc]

theorem dropWhile_fix_head {p : Char → Bool} {c : Char} {cs : List Char}
    (h : (c :: cs).dropWhile p = c :: cs) : p c = false := by
  by_cases hp : p c = true
  · rw [List.dropWhile_cons, if_pos hp] at h
    have hlen := congrArg List.length h
    have hle := dropWhile_length_le p cs
    simp at hlen
    omega
  · simpa using hp

theorem dropTail_append_fix {p : Char → Bool} {v : List Char} (A : List Char)
    (hfix : dropTail p v = v) (hne : v ≠ []) : dropTail p (A ++ v) = A ++ v := by
  have hrevfix : v.reverse.dropWhile p = v.reverse := by
    have h2 := congrArg List.reverse hfix
    simpa [dropTail] using h2
  obtain ⟨c, cs, hv⟩ : ∃ c cs, v.reverse = c :: cs := by
    cases hv : v.reverse with
    | nil =>
      exfalso
      apply hne
      have h3 := congrArg List.reverse hv
      simpa using h3
    | cons c cs => exact ⟨c, cs, rfl⟩
  have hpc : p c = false := by
    rw [hv] at hrevfix
    exact dropWhile_fix_head hrevfix
  have hshape : (A ++ v).reverse = c :: (cs ++ A.reverse) := by
    rw [List.reverse_append, hv]
    simp [List.cons_append]
  unfold dropTail
  rw [hshape, List.dropWhile_cons, hpc]
  simp only [Bool.false_eq_true, if_false]
  rw [← hshape, List.reverse_reverse]

/-- C4.  Quote stripping, amended: for a top-level scalar line, both readers
store the value with every leading and trailing quote character (single or
double, in any combination) removed; matching of the two ends is not
required, so a one-sided or mismatched quote is stripped too. -/
theorem C4_amended (k v : List Char)
    (hk1 : k ≠ []) (hk2 : k.all isWordC = true)
    (hv0 : v.dropWhile isWsC = v) (hv1 : dropTail isWsC v = v)
    (hv2 : v ≠ []) (hv3 : v ≠ lbrk) (hv4 : isInlineArr v = false) :
    parseSlines [k ++ ':' :: v] = [(k, TVal.str (stripQ v))] ∧
    parseFlines [k ++ ':' :: v] = [(k, TVal.str (stripQ v))] := by
  have hkv : kvMatch (k ++ ':' :: v) = some (k, v) := by
    rw [kvMatch_build hk1 hk2, hv0]
  have htrim : trimWs v = v := by
    unfold trimWs
    rw [hv0, hv1]
  have hlfix : dropTail isWsC (k ++ ':' :: v) = k ++ ':' :: v := by
    have he : k ++ ':' :: v = (k ++ [':']) ++ v := by simp
    rw [he]
    exact dropTail_append_fix _ hv1 hv2
  have hkv' : kvMatch (dropTail isWsC (k ++ ':' :: v)) = some (k, v) := by
    rw [hlfix]
    exact hkv
  have hval : ¬(v = [] ∨ v = lbrk) := by
    rintro (h | h)
    · exact hv2 h
    · exact hv3 h
  have hval2 : ¬(v = lbrk ∨ v = []) := by
    rintro (h | h)
    · exact hv3 h
    · exact hv2 h
  obtain ⟨kh, kt, rfl⟩ : ∃ kh kt, k = kh :: kt := by
    cases k with
    | nil => exact absurd rfl hk1
    | cons kh kt => exact ⟨kh, kt, rfl⟩
  have hempty : (dropTail isWsC (kh :: kt ++ ':' :: v)).isEmpty = false := by
    rw [hlfix]
    rfl
  constructor
  · unfold parseSlines
    simp only [List.foldl_cons, List.foldl_nil]
    unfold stepS
    simp only [hempty, Bool.false_eq_true, if_false, kv_slistMatch_none hkv', hkv', htrim]
    rw [if_neg hval]
    simp only [hv4, Bool.false_eq_true, if_false]
    rfl
  · unfold parseFlines
    simp only [List.foldl_cons, List.foldl_nil]
    unfold stepF
    simp only [trim_ne_nil_of_kv hkv, Bool.false_eq_true, if_false,
      kv_flistMatch_none hkv, kv_propMatch_none hkv]
    unfold kvStepF
    simp only [hkv, htrim]
    rw [if_neg hval2]
    simp only [hv4, Bool.false_eq_true, if_false]
    rfl

/-- Witness for C4 on the mismatched-quote value of the claim. -/
theorem C4_witness :
    ("key".data ≠ [] ∧ "key".data.all isWordC = true ∧
     ("\"abc".data ++ ['\'']).dropWhile isWsC = "\"abc".data ++ ['\''] ∧
     dropTail isWsC ("\"abc".data ++ ['\'']) = "\"abc".data ++ ['\''] ∧
     "\"abc".data ++ ['\''] ≠ [] ∧ "\"abc".data ++ ['\''] ≠ lbrk ∧
     isInlineArr ("\"abc".data ++ ['\'']) = false) ∧
    (parseSlines ["key".data ++ ':' :: ("\"abc".data ++ ['\''])]
        = [("key".data, TVal.str (stripQ ("\"abc".data ++ ['\''])))] ∧
     parseFlines ["key".data ++ ':' :: ("\"abc".data ++ ['\''])]
        = [("key".data, TVal.str (stripQ ("\"abc".data ++ ['\''])))]) :=
  ⟨⟨by decide, by decide, by decide, by decide, by decide, by decide, by decide⟩,
    C4_amended "key".data ("\"abc".data ++ ['\''])
      (by decide) (by decide) (by decide) (by decide) (by decide) (by decide) (by decide)⟩

/-- C4 counterexample: the line with a double quote on the left and a single
quote on the right is stored with BOTH stripped (value abc), not preserved
as the claim asserts for mismatched quoting. -/
theorem C4_cex :
    parse_yaml_simple ("key: \"abc".data ++ ['\'']) = [("key".data, TVal.str "abc".data)] ∧
    parse_yaml_frontmatter ("---\nkey: \"abc".data ++ '\'' :: "\n---".data)
      = some [("key".data, TVal.str "abc".data)] ∧
    TVal.str "abc".data ≠ TVal.str ("\"abc".data ++ ['\'']) :=
  ⟨by decide, by decide, by decide⟩

/-! ## C10: value shapes produced by the sync reader -/

/-- A list entry that is a plain string (not a flat object). -/
def itemStr : LItem → Bool
  | LItem.str _ => true
  | LItem.obj _ => false

/-- A mapping value that is a scalar string or a list of plain strings. -/
def tvalStrOnly : TVal → Bool
  | TVal.str _ => true
  | TVal.list l => l.all itemStr

theorem updA_all {m : List (List Char × TVal)} {k : List Char} {v : TVal}
    (hm : m.all (fun kv => tvalStrOnly kv.2) = true) (hv : tvalStrOnly v = true) :
    (updA m k v).all (fun kv => tvalStrOnly kv.2) = true := by
  induction m with
  | nil => simp [updA, hv]
  | cons x xs ih =>
    obtain ⟨k1, v1⟩ := x
    simp only [List.all_cons, Bool.and_eq_true] at hm
    obtain ⟨h1, h2⟩ := hm
    unfold updA
    by_cases he : k1 = k
    · rw [if_pos he]
      simp [hv, h2]
    · rw [if_neg he]
      simp [h1, ih h2]

theorem all_map_itemStr (xs : List (List Char)) :
    ((xs.map LItem.str).all itemStr) = true := by
  induction xs with
  | nil => rfl
  | cons a as ih => simpa [itemStr] using ih

/-- Invariant of the sync-reader state: every stored value and every pending
list item is string-shaped. -/
def sOk (st : SState) : Prop :=
  st.result.all (fun kv => tvalStrOnly kv.2) = true ∧ st.curList.all itemStr = true

theorem stepS_sOk {st : SState} (h : sOk st) (raw : List Char) : sOk (stepS st raw) := by
  obtain ⟨h1, h2⟩ := h
  obtain ⟨res, ck, cl, il⟩ := st
  simp only at h1 h2
  unfold stepS
  by_cases he : (dropTail isWsC raw).isEmpty = true
  · simp only [he, if_true]
    exact ⟨h1, h2⟩
  · simp only [Bool.not_eq_true] at he
    simp only [he, Bool.false_eq_true, if_false]
    cases hsl : slistMatch (dropTail isWsC raw) with
    | some w =>
      cases ck with
      | none =>
        cases il with
        | false => exact ⟨h1, h2⟩
        | true => exact ⟨h1, h2⟩
      | some ck0 =>
        cases il with
        | false => exact ⟨h1, h2⟩
        | true =>
          constructor
          · exact h1
          · simp only [List.all_append, h2, Bool.true_and]
            simp [itemStr]
    | none =>
      cases hkv : kvMatch (dropTail isWsC raw) with
      | none => exact ⟨h1, h2⟩
      | some kv =>
        obtain ⟨key, v0⟩ := kv
        have hone : tvalStrOnly (TVal.list ((parseArr (trimWs v0)).map LItem.str)) = true := by
          simp only [tvalStrOnly]
          exact all_map_itemStr _
        have hstr : ∀ s : List Char, tvalStrOnly (TVal.str s) = true := fun s => rfl
        have hcl : tvalStrOnly (TVal.list cl) = true := h2
        simp only []
        by_cases hb1 : (trimWs v0 = [] ∨ trimWs v0 = lbrk)
        · rw [if_pos hb1]
          cases ck with
          | none =>
            cases il with
            | false => exact ⟨h1, rfl⟩
            | true => exact ⟨h1, rfl⟩
          | some ck0 =>
            cases il with
            | false => exact ⟨h1, rfl⟩
            | true => exact ⟨updA_all h1 hcl, rfl⟩
        · rw [if_neg hb1]
          by_cases hb2 : isInlineArr (trimWs v0) = true
          · rw [if_pos hb2]
            cases ck with
            | none =>
              cases il with
              | false => exact ⟨updA_all h1 hone, h2⟩
              | true => exact ⟨updA_all h1 hone, h2⟩
            | some ck0 =>
              cases il with
              | false => exact ⟨updA_all h1 hone, h2⟩
              | true => exact ⟨updA_all (updA_all h1 hcl) hone, rfl⟩
          · rw [if_neg hb2]
            cases ck with
            | none =>
              cases il with
              | false => exact ⟨updA_all h1 (hstr _), h2⟩
              | true => exact ⟨updA_all h1 (hstr _), h2⟩
            | some ck0 =>
              cases il with
              | false => exact ⟨updA_all h1 (hstr _), h2⟩
              | true => exact ⟨updA_all (updA_all h1 hcl) (hstr _), rfl⟩

theorem foldl_stepS_sOk : ∀ (ls : List (List Char)) (st : SState),
    sOk st → sOk (ls.foldl stepS st) := by
  intro ls
  induction ls with
  | nil => intro st h; exact h
  | cons x xs ih => intro st h; exact ih _ (stepS_sOk h x)

/-- C10.  Value-shape invariant of the sync reader: every value in the
mapping returned by parse_yaml_simple is a scalar string or a list of plain
strings; no entry is ever an object-shaped list item. -/
theorem C10_thm (text : List Char) :
    (parse_yaml_simple text).all (fun kv => tvalStrOnly kv.2) = true := by
  unfold parse_yaml_simple parseSlines
  have h := foldl_stepS_sOk (splitNl (trimWs text)) initS ⟨rfl, rfl⟩
  obtain ⟨h1, h2⟩ := h
  unfold finishS
  split
  · exact updA_all h1 h2
  · exact h1
